import Mathlib

/-!
# Include cleaner (`src/plugin/PrintFunctionNameso.cpp`)

A shallow embedding of the include-usage analysis of the clang plugin: the
string helpers (`trim_suffix`, `split`, `trim_filename`), the preprocessor
callbacks of `Find_Includes` (`InclusionDirective`, `MacroExpands`), the AST
match callback `DeclCheckerHandler::run`, and the finalization
`DeclCheckerHandler::onEndOfTranslationUnit`.

Modelling conventions.
* `std::string` is a list of characters (`Str`); `std::string::operator<` is
  the lexicographic order on character codes (`strLt`).
* `std::map<std::string, T>` is an association list kept in key order
  (`mapFind`, `mapSet`); iterating the map walks the list front to back.
  `std::set<std::string>` is a list kept in key order (`setInsert`).
* The `int` usage counters are `Int`; a counter is incremented at most once per
  declaration record or macro expansion, so wrap-around is outside the model.
* A `SourceLocation` carries, next to its raw encoding, what the
  `SourceManager` answers about it (file name, whether it is in the main file).
* The `DiagnosticsEngine` is the list `diags` of reported diagnostics.
-/

namespace IncludeCleaner

/-! ## Strings -/

/-- A `std::string`. -/
abbrev Str := List Char

/-- The order `std::string::operator<`: lexicographic on the character codes,
a proper prefix being smaller. -/
def strLt : Str → Str → Bool
  | [], [] => false
  | [], _ :: _ => true
  | _ :: _, [] => false
  | a :: as, b :: bs =>
    if a.toNat < b.toNat then true
    else if b.toNat < a.toNat then false
    else strLt as bs

/-- The helper `trim_suffix(name, suffix)`. Both `return` statements build an
engaged `llvm::Optional`; the disengaged return is commented out in the
source. -/
def trim_suffix (name suffix : Str) : Option Str :=
  if name.length ≥ suffix.length ∧
      name.drop (name.length - suffix.length) = suffix then
    some (name.take (name.length - suffix.length))
  else
    some name

/-- The loop of `split`: `cur` is `text.substr(start, i - start)` for the
position `i` reached so far. -/
def splitFrom (sep : Char) : Str → Str → List Str
  | [], cur => [cur]
  | c :: cs, cur =>
    if c = sep then cur :: splitFrom sep cs [] else splitFrom sep cs (cur ++ [c])

/-- The helper `split(text, sep)`. -/
def split (text : Str) (sep : Char) : List Str :=
  splitFrom sep text []

/-- The loop variables `res`, `prev`, `idx` of `trim_filename`. -/
structure TrimState where
  res : Str
  prev : Str
  idx : Nat
deriving DecidableEq, Repr

/-- One iteration of the loop of `trim_filename`; `size` is `parts.size()`.
(`idx` is a `uint32_t` in the source; a path has far fewer than `2^32`
segments.) -/
def trimStep (size : Nat) (st : TrimState) (part : Str) : TrimState :=
  let idx := st.idx + 1
  if part = ".".toList then { st with idx := idx }
  else if part = "..".toList then { res := st.prev, prev := st.prev, idx := idx }
  else
    { res := st.res ++ (part ++ (if idx < size then "/".toList else "".toList)),
      prev := st.res,
      idx := idx }

/-- The helper `trim_filename(name)`. -/
def trim_filename (name : Str) : Str :=
  let parts := split name '/'
  (parts.foldl (trimStep parts.length) { res := [], prev := [], idx := 0 }).res

/-! ## `std::map` and `std::set` keyed by strings -/

/-- The lookup `m.find(k)`: the value stored under `k`, if any. -/
def mapFind {β : Type} : List (Str × β) → Str → Option β
  | [], _ => none
  | (k', v) :: t, k => if k' = k then some v else mapFind t k

/-- The member `m.count(k)`. -/
def mapCount {β : Type} (m : List (Str × β)) (k : Str) : Nat :=
  if (mapFind m k).isSome then 1 else 0

/-- Overwrite the value of an existing key. -/
def mapUpdate {β : Type} (k : Str) (v : β) : List (Str × β) → List (Str × β)
  | [] => []
  | (k', v') :: t => if k' = k then (k', v) :: t else (k', v') :: mapUpdate k v t

/-- Insert a new key at its place in the key order. -/
def mapInsertNew {β : Type} (k : Str) (v : β) : List (Str × β) → List (Str × β)
  | [] => [(k, v)]
  | (k', v') :: t =>
    if strLt k k' then (k, v) :: (k', v') :: t else (k', v') :: mapInsertNew k v t

/-- The assignment `m[k] = v`. -/
def mapSet {β : Type} (m : List (Str × β)) (k : Str) (v : β) : List (Str × β) :=
  if mapCount m k = 0 then mapInsertNew k v m else mapUpdate k v m

/-- The keys of a map, in iteration order. -/
def mapKeys {β : Type} (m : List (Str × β)) : List Str :=
  m.map Prod.fst

/-- Insert a new element at its place in the order of a `std::set`. -/
def setInsertNew (k : Str) : List Str → List Str
  | [] => [k]
  | k' :: t => if strLt k k' then k :: k' :: t else k' :: setInsertNew k t

/-- The member `s.insert(k)` of `std::set<std::string>`. -/
def setInsert (s : List Str) (k : Str) : List Str :=
  if k ∈ s then s else setInsertNew k s

/-! ## Data of the front end -/

/-- A `clang::SourceLocation` together with what the `SourceManager` answers
about it. `ID = 0` is the invalid location. -/
structure SourceLocation where
  ID : Nat
  filename : Str
  inMainFile : Bool
deriving DecidableEq, Repr

/-- The member `SourceLocation::isValid`. -/
def SourceLocation.isValid (loc : SourceLocation) : Bool :=
  loc.ID != 0

/-- The default-constructed `SourceLocation()`, which is invalid. -/
def SourceLocation.invalid : SourceLocation :=
  { ID := 0, filename := [], inMainFile := false }

/-- The helper `get_filename(source_mgr, loc)`. -/
def get_filename (loc : SourceLocation) : Str :=
  if !loc.isValid then [] else trim_filename loc.filename

/-- The dynamic class of a `NamedDecl`, as far as the `dyn_cast` chain of
`run` tells classes apart. `TypedefName`, `Tag` and `OtherType` are the
subclasses of `TypeDecl`. -/
inductive DeclClass where
  | TypedefName
  | Tag
  | OtherType
  | Var (hasExternalStorage : Bool)
  | Function
  | EnumConstant
  | Other
deriving DecidableEq, Repr

/-- A `NamedDecl` bound to `"declOther"`: `nameAsString` is
`getNameAsString()`, `typeAsString` the printed `getTypeForDecl()` of a
`TypeDecl`. -/
structure NamedDecl where
  cls : DeclClass
  nameAsString : Str
  typeAsString : Str
  location : SourceLocation
  beginLoc : SourceLocation
  endLoc : SourceLocation
deriving DecidableEq, Repr

/-- The helper `getFilenameFromDecl(source_mgr, decl)`. -/
def getFilenameFromDecl (decl : NamedDecl) : Str :=
  let filename := get_filename decl.location
  let filename := if filename.length = 0 then get_filename decl.beginLoc else filename
  let filename := if filename.length = 0 then get_filename decl.endLoc else filename
  filename

/-- A `TagDecl` reached from a type: `typeName` is the canonical unqualified
spelling of its type. -/
structure TagDecl where
  typeName : Str
  location : SourceLocation
deriving DecidableEq, Repr

/-- A `TypedefType` reached from a `TypeLoc`: the name and location of its
`TypedefNameDecl` and the result of `getAnonDeclWithTypedefName`. -/
structure TypedefType where
  name : Str
  location : SourceLocation
  anonDecl : Option TagDecl
deriving DecidableEq, Repr

/-- A `TypeLoc` bound to `"typeLoc"`: `getAsTagDecl()` and
`getAs<TypedefType>()` of its type. -/
structure TypeLoc where
  tagDecl : Option TagDecl
  typedefType : Option TypedefType
deriving DecidableEq, Repr

/-- A `DeclRefExpr` bound to `"declRef"`: the location of the referenced
declaration and the referenced name. -/
structure DeclRefExpr where
  declLocation : SourceLocation
  name : Str
deriving DecidableEq, Repr

/-- The nodes of a `MatchFinder::MatchResult` that the include analysis reads:
`memberExpr` is the printed type of the record owning the accessed field,
`decl` the name of a `ValueDecl` of the main file. The lint matchers
(`"ObjCInterfaceDecl"`, `"badFunc"`) touch no field of the analysis and are
left out. -/
structure MatchResult where
  memberExpr : Option Str
  declRef : Option DeclRefExpr
  decl : Option Str
  declOther : Option NamedDecl
  typeLoc : Option TypeLoc
deriving DecidableEq, Repr

/-- The arguments of `PPCallbacks::InclusionDirective` that the callback
reads: `file` is `file->getName()` (`none` for a null `FileEntry`),
`afterFilename` the source text that follows the file-name token. -/
structure Inclusion where
  hash_loc : SourceLocation
  file : Option Str
  afterFilename : Str
deriving DecidableEq, Repr

/-- The arguments of `PPCallbacks::MacroExpands` that the callback reads. -/
structure MacroExpansion where
  macro_def_loc : SourceLocation
  use_loc : SourceLocation
deriving DecidableEq, Repr

/-! ## Diagnostics -/

/-- The severity of a custom diagnostic. -/
inductive Level where
  | Warning
  | Error
deriving DecidableEq, Repr

/-- The two format strings of the include cleaner. -/
inductive DiagKind where
  | unusedInclude
  | redundantAllowed
deriving DecidableEq, Repr

/-- A reported diagnostic: `Report(loc, diagID) << filename`. -/
structure Diagnostic where
  level : Level
  loc : SourceLocation
  kind : DiagKind
  filename : Str
deriving DecidableEq, Repr

/-! ## The analysis state -/

/-- The three shared containers created by `PrintFunctionsConsumer`, the
members of `DeclCheckerHandler`, and the diagnostics engine. -/
structure State where
  include_usages_count : List (Str × Int)
  includes_marked_as_allowed : List Str
  include_locations : List (Str × SourceLocation)
  definitions : List Str
  usages : List Str
  declarations : List (Str × List Str)
  tag_definitions : List Str
  tag_declarations : List (Str × List Str)
  extern_declarations : List (Str × List Str)
  done : Bool
  warningsAsErrors : Bool
  diags : List Diagnostic
deriving DecidableEq, Repr

/-- The severity chosen by both `emit_*` helpers. -/
def diagLevel (s : State) : Level :=
  if s.warningsAsErrors then Level.Error else Level.Warning

/-- The helper `emit_redundant_allowed_warn`. -/
def emit_redundant_allowed_warn (s : State) (loc : SourceLocation) (filename : Str) : State :=
  { s with diags := s.diags ++ [{ level := diagLevel s, loc := loc,
                                  kind := DiagKind.redundantAllowed, filename := filename }] }

/-- The helper `emit_unused_include_warn`. -/
def emit_unused_include_warn (s : State) (loc : SourceLocation) (filename : Str) : State :=
  { s with diags := s.diags ++ [{ level := diagLevel s, loc := loc,
                                  kind := DiagKind.unusedInclude, filename := filename }] }

/-! ## `DeclCheckerHandler` -/

/-- The method `handle_source_location(filename)`, on the usage-count map. -/
def handle_source_location (m : List (Str × Int)) (filename : Str) : List (Str × Int) :=
  if mapCount m filename = 0 then mapSet m filename 1
  else mapSet m filename ((mapFind m filename).getD 0 + 1)

/-- The static method `handle_declaration(ns, name, filename)`: a missing name
gets a fresh empty deque, then `filename` is pushed at the back. -/
def handle_declaration (ns : List (Str × List Str)) (name filename : Str) :
    List (Str × List Str) :=
  let ns := if mapCount ns name = 0 then mapSet ns name [] else ns
  mapSet ns name ((mapFind ns name).getD [] ++ [filename])

/-- The method `handle_tag_usage(context, tag_decl)`. -/
def handle_tag_usage (s : State) (tag_decl : TagDecl) : State :=
  if tag_decl.location.isValid then
    { s with tag_definitions := setInsert s.tag_definitions tag_decl.typeName }
  else s

/-- The result of `dyn_cast<TypeDecl>`: non-null for the subclasses of
`TypeDecl`. -/
def DeclClass.isTypeDecl : DeclClass → Bool
  | .TypedefName => true
  | .Tag => true
  | .OtherType => true
  | _ => false

/-- The body of the `"declOther"` block of `run` under its guard
`decl->getLocation().isValid()`: the `dyn_cast` chain that files the
declaration into the declaration maps. -/
def recordDeclOther (s : State) (decl : NamedDecl) : State :=
  let filename := getFilenameFromDecl decl
  if decl.cls = DeclClass.TypedefName then
    { s with tag_declarations := handle_declaration s.tag_declarations decl.nameAsString filename }
  else if decl.cls.isTypeDecl then
    { s with tag_declarations := handle_declaration s.tag_declarations decl.typeAsString filename }
  else
    match decl.cls with
    | DeclClass.Var hasExternalStorage =>
      let s := if hasExternalStorage then
          { s with extern_declarations :=
              handle_declaration s.extern_declarations decl.nameAsString filename }
        else s
      { s with declarations := handle_declaration s.declarations decl.nameAsString filename }
    | DeclClass.Function =>
      let s := { s with extern_declarations :=
          handle_declaration s.extern_declarations decl.nameAsString filename }
      { s with declarations := handle_declaration s.declarations decl.nameAsString filename }
    | DeclClass.EnumConstant =>
      { s with declarations := handle_declaration s.declarations decl.nameAsString filename }
    | _ => s

/-- The `"memberExpr"` block of `run`: `memberExpr` is the printed type of the
record that owns the accessed field. -/
def runMemberExpr (s : State) (memberExpr : Option Str) : State :=
  match memberExpr with
  | some name => { s with tag_definitions := setInsert s.tag_definitions name }
  | none => s

/-- The `"declRef"` block of `run`. -/
def runDeclRef (s : State) (declRef : Option DeclRefExpr) : State :=
  match declRef with
  | some expr =>
    if expr.declLocation.isValid then { s with usages := setInsert s.usages expr.name } else s
  | none => s

/-- The `"typeLoc"` block of `run`. -/
def runTypeLoc (s : State) (typeLoc : Option TypeLoc) : State :=
  match typeLoc with
  | some type_loc =>
    let s := match type_loc.tagDecl with
      | some tag_decl => handle_tag_usage s tag_decl
      | none => s
    match type_loc.typedefType with
    | some typedef_type =>
      let s := if typedef_type.location.isValid then
          { s with tag_definitions := setInsert s.tag_definitions typedef_type.name }
        else s
      match typedef_type.anonDecl with
      | some other_tag_decl => handle_tag_usage s other_tag_decl
      | none => s
    | none => s
  | none => s

/-- The match callback `DeclCheckerHandler::run(Result)`: the blocks in source
order, the `"decl"` block and the `"declOther"` block (for a valid location)
ending in `return`. -/
def run (s : State) (Result : MatchResult) : State :=
  let s := runMemberExpr s Result.memberExpr
  let s := runDeclRef s Result.declRef
  match Result.decl with
  | some name => { s with definitions := setInsert s.definitions name }
  | none =>
    match Result.declOther with
    | some decl =>
      if decl.location.isValid then recordDeclOther s decl
      else runTypeLoc s Result.typeLoc
    | none => runTypeLoc s Result.typeLoc

/-- The method `process_deps(definitions, declarations)`: every file that
declares a used name is passed to `handle_source_location`. -/
def process_deps (definitions : List Str) (declarations : List (Str × List Str))
    (m : List (Str × Int)) : List (Str × Int) :=
  definitions.foldl
    (fun m it =>
      if mapCount declarations it > 0 then
        ((mapFind declarations it).getD []).foldl handle_source_location m
      else m)
    m

/-- The three `process_deps` calls of `onEndOfTranslationUnit`: the usage-count
map after cross-matching. -/
def crossMatch (s : State) : List (Str × Int) :=
  process_deps s.tag_definitions s.tag_declarations
    (process_deps s.definitions s.extern_declarations
      (process_deps s.usages s.declarations s.include_usages_count))

/-- The first loop of `onEndOfTranslationUnit`: the vector
`apis_allowed_because_of_privates`. -/
def apis_allowed_because_of_privates (m : List (Str × Int)) : List Str :=
  m.filterMap fun it =>
    let filename := it.1
    match trim_suffix filename "_private.h".toList with
    | none => none
    | some trimmed =>
      if mapCount m filename = 0 then none
      else if (mapFind m filename).getD 0 = 0 then none
      else some (trimmed ++ "_api.h".toList)

/-- The body of the second loop of `onEndOfTranslationUnit`. -/
def creditApi (m : List (Str × Int)) (api : Str) : List (Str × Int) :=
  if mapCount m api = 0 then mapSet m api 1
  else mapSet m api ((mapFind m api).getD 0 + 1)

/-- The first two loops of `onEndOfTranslationUnit`: the private/public
propagation on the usage-count map. -/
def propagatePrivates (m : List (Str × Int)) : List (Str × Int) :=
  (apis_allowed_because_of_privates m).foldl creditApi m

/-- The value of `(*m_include_locations)[filename]`. -/
def locationAt (locs : List (Str × SourceLocation)) (filename : Str) : SourceLocation :=
  (mapFind locs filename).getD SourceLocation.invalid

/-- The effect of `(*m_include_locations)[filename]` on the map: a missing key
is inserted with the default location. -/
def touchLocation (locs : List (Str × SourceLocation)) (filename : Str) :
    List (Str × SourceLocation) :=
  if mapCount locs filename = 0 then mapSet locs filename SourceLocation.invalid else locs

/-- The body of the verdict loop of `onEndOfTranslationUnit`. -/
def verdictStep (s : State) (it : Str × Int) : State :=
  let filename := it.1
  let count := it.2
  let marked_as_allowed := decide (filename ∈ s.includes_marked_as_allowed)
  if count = 0 then
    if marked_as_allowed then s
    else
      emit_unused_include_warn
        { s with include_locations := touchLocation s.include_locations filename }
        (locationAt s.include_locations filename) filename
  else if marked_as_allowed then
    emit_redundant_allowed_warn
      { s with include_locations := touchLocation s.include_locations filename }
      (locationAt s.include_locations filename) filename
  else s

/-- The method `DeclCheckerHandler::onEndOfTranslationUnit`. -/
def onEndOfTranslationUnit (s : State) : State :=
  if s.done then s
  else
    let s := { s with done := true }
    let s := { s with include_usages_count := crossMatch s }
    let s := { s with include_usages_count := propagatePrivates s.include_usages_count }
    s.include_usages_count.foldl verdictStep s

/-! ## `Find_Includes` -/

/-- The method `MarkFileUsed(name)`. -/
def MarkFileUsed (m : List (Str × Int)) (name : Str) : List (Str × Int) :=
  if mapCount m name = 0 then mapSet m name 1 else m

/-- The seeding done by the constructor of `Find_Includes` on the usage-count
map, from the name of the main file. -/
def seedMainFile (m : List (Str × Int)) (main_filename : Str) : List (Str × Int) :=
  match trim_suffix main_filename ".c".toList with
  | some trimmed =>
    MarkFileUsed (MarkFileUsed m (trimmed ++ ".h".toList)) (trimmed ++ "_api.h".toList)
  | none => m

/-- The method `isIgnoredFile(name)`. -/
def isIgnoredFile (name : Str) : Bool :=
  let ignored_prefix := "/usr/".toList
  if name.take ignored_prefix.length = ignored_prefix then true
  else
    let allowed_suffix := ".h".toList
    if name.length ≥ allowed_suffix.length then
      if name.drop (name.length - allowed_suffix.length) ≠ allowed_suffix then true else false
    else false

/-- The method `hasIncludeComment(filename_range, sm, expected)`: the
`expected.size()` characters after the file-name token are compared with
`expected`. -/
def hasIncludeComment (afterFilename expected : Str) : Bool :=
  afterFilename.take expected.length = expected

/-- The callback `Find_Includes::InclusionDirective`. -/
def InclusionDirective (s : State) (d : Inclusion) : State :=
  if !d.hash_loc.isValid then s
  else
    match d.file with
    | none => s
    | some fileName =>
      if !d.hash_loc.inMainFile then s
      else
        let name := trim_filename fileName
        if mapCount s.include_usages_count name > 0 then s
        else if isIgnoredFile name then s
        else
          let allowed :=
            if hasIncludeComment d.afterFilename " /* include:allowed */".toList then
              setInsert s.includes_marked_as_allowed name
            else s.includes_marked_as_allowed
          { s with
            includes_marked_as_allowed := allowed,
            include_usages_count :=
              mapSet s.include_usages_count name
                (if hasIncludeComment d.afterFilename " /* include:optional */".toList
                  then 1 else 0),
            include_locations := mapSet s.include_locations name d.hash_loc }

/-- The callback `Find_Includes::MacroExpands`. -/
def MacroExpands (s : State) (e : MacroExpansion) : State :=
  let filename := get_filename e.macro_def_loc
  if !e.use_loc.isValid then s
  else if !e.use_loc.inMainFile then s
  else if isIgnoredFile filename then s
  else
    { s with
      include_usages_count :=
        if mapCount s.include_usages_count filename = 0 then
          mapSet s.include_usages_count filename 1
        else
          mapSet s.include_usages_count filename
            ((mapFind s.include_usages_count filename).getD 0 + 1),
      include_locations := mapSet s.include_locations filename e.use_loc }

/-! ## One translation unit -/

/-- The state built by the constructor of `PrintFunctionsConsumer`: three fresh
containers, seeded by the constructor of `Find_Includes`, and a
`DeclCheckerHandler` with `m_done = false`. -/
def initState (main_filename : Str) (warningsAsErrors : Bool) : State :=
  { include_usages_count := seedMainFile [] main_filename,
    includes_marked_as_allowed := [],
    include_locations := [],
    definitions := [],
    usages := [],
    declarations := [],
    tag_definitions := [],
    tag_declarations := [],
    extern_declarations := [],
    done := false,
    warningsAsErrors := warningsAsErrors,
    diags := [] }

/-- A callback invocation made by the front end before the end of the
translation unit. -/
inductive Event where
  | inclusion (d : Inclusion)
  | macroExpands (e : MacroExpansion)
  | matched (r : MatchResult)
deriving DecidableEq, Repr

/-- Dispatch of one callback invocation. -/
def step (s : State) : Event → State
  | Event.inclusion d => InclusionDirective s d
  | Event.macroExpands e => MacroExpands s e
  | Event.matched r => run s r

/-- The state of the analysis of the main file `main_filename` after the
callback invocations `evs`, before the end of the translation unit. -/
def analyse (main_filename : Str) (warningsAsErrors : Bool) (evs : List Event) : State :=
  evs.foldl step (initState main_filename warningsAsErrors)

/-! ## Notions used in the statements -/

/-- The usage count of `filename`: the stored counter, `0` without a record. -/
def usageCount (m : List (Str × Int)) (filename : Str) : Int :=
  (mapFind m filename).getD 0

/-- The declaring-file list of `name` in a declaration bucket: the deque stored
under `name`, empty when the bucket has no such key. -/
def declaringFiles (ns : List (Str × List Str)) (name : Str) : List Str :=
  (mapFind ns name).getD []

/-- The number of times `process_deps(definitions, declarations)` passes the
file `f` to `handle_source_location`: the occurrences of `f` in the lists of
the used names, summed over the used names. -/
def creditOf (definitions : List Str) (declarations : List (Str × List Str)) (f : Str) : Nat :=
  (definitions.map fun it => ((mapFind declarations it).getD []).count f).sum

/-- A usage-count map is well formed when no key is repeated and no counter is
negative. -/
def CountsOk (m : List (Str × Int)) : Prop :=
  (mapKeys m).Nodup ∧ ∀ g, 0 ≤ usageCount m g

/-- The usage-count map after cross-matching and private/public propagation,
as the verdict loop reads it. -/
def finalCounts (s : State) : List (Str × Int) :=
  propagatePrivates (crossMatch s)

/-- The diagnostic that one iteration of the verdict loop reports for the map
entry `it`, if any. -/
def verdictOf (allowed : List Str) (locs : List (Str × SourceLocation)) (level : Level)
    (it : Str × Int) : Option Diagnostic :=
  if it.2 = 0 then
    if it.1 ∈ allowed then none
    else some { level := level, loc := locationAt locs it.1,
                kind := DiagKind.unusedInclude, filename := it.1 }
  else if it.1 ∈ allowed then
    some { level := level, loc := locationAt locs it.1,
           kind := DiagKind.redundantAllowed, filename := it.1 }
  else none

/-- The diagnostics of kind `kind` that name the file `filename`. -/
def diagnosticsFor (s : State) (kind : DiagKind) (filename : Str) : List Diagnostic :=
  s.diags.filter fun d => decide (d.kind = kind ∧ d.filename = filename)

/-- The fields shared with `Find_Includes` and the finalization flag, the
configuration and the reported diagnostics agree in `s` and `t`. -/
def SameShared (s t : State) : Prop :=
  t.include_usages_count = s.include_usages_count
    ∧ t.includes_marked_as_allowed = s.includes_marked_as_allowed
    ∧ t.include_locations = s.include_locations
    ∧ t.done = s.done
    ∧ t.warningsAsErrors = s.warningsAsErrors
    ∧ t.diags = s.diags

/-- The states between the constructors and the end of the translation unit:
a well-formed usage-count map, finalization not yet run, nothing reported. -/
def Pending (s : State) : Prop :=
  CountsOk s.include_usages_count ∧ s.done = false ∧ s.diags = []

/-- The file `F` is spared by the unused-include check on the usage-count map
`m`: a record of `F`, if there is one, has a positive count, and `F` is
filtered or has a record. -/
def Spared (F : Str) (m : List (Str × Int)) : Prop :=
  (F ∈ mapKeys m → 1 ≤ usageCount m F) ∧ (isIgnoredFile F = true ∨ F ∈ mapKeys m)

/-- The file `F` has a record and is marked as allowed in the state `s`. -/
def MarkedAllowed (F : Str) (s : State) : Prop :=
  F ∈ s.includes_marked_as_allowed ∧ F ∈ mapKeys s.include_usages_count

/-- The path `name` lies under the system prefix `/usr/`. -/
def hasSystemPrefix (name : Str) : Bool :=
  "/usr/".toList.isPrefixOf name

/-- The path `name` ends in the header suffix `.h`. -/
def hasHeaderSuffix (name : Str) : Bool :=
  ".h".toList.isSuffixOf name

/-- The match result of the matcher `declarationsInOtherFiles`, which binds
`"declOther"` only. -/
def declOtherResult (decl : NamedDecl) : MatchResult :=
  { memberExpr := none, declRef := none, decl := none, declOther := some decl, typeLoc := none }

/-- The condition under which `MacroExpands` reaches its assignments: the use
location is valid and in the main file and the file of the macro definition is
not filtered. -/
def macroCounts (e : MacroExpansion) : Bool :=
  e.use_loc.isValid && e.use_loc.inMainFile && !isIgnoredFile (get_filename e.macro_def_loc)

/-- Lexical resolution of a list of path segments, in the words of the
canonicalization claim: a `.` segment is dropped, a `..` segment cancels the
nearest preceding remaining ordinary segment, any other segment remains.
`kept` holds the remaining segments, nearest first. -/
def resolveSegments : List Str → List Str → List Str
  | kept, [] => kept.reverse
  | kept, seg :: rest =>
    if seg = ".".toList then resolveSegments kept rest
    else if seg = "..".toList then resolveSegments kept.tail rest
    else resolveSegments (seg :: kept) rest

/-- The file that the `/`-separated spelling `p` denotes under lexical
resolution: its remaining segments. -/
def lexicalResolution (p : Str) : List Str :=
  resolveSegments [] (split p '/')

/-- The keys of a map are in strictly ascending `std::string` order. -/
def KeysSorted {β : Type} (m : List (Str × β)) : Prop :=
  (mapKeys m).Pairwise fun a b => strLt a b = true

/-- The canonical names of the files of the include directives of `evs`, in
the order of the directives. -/
def directiveFiles (evs : List Event) : List Str :=
  evs.filterMap fun ev =>
    match ev with
    | Event.inclusion d => d.file.map trim_filename
    | _ => none

/-- The callback invocation `ev` is a macro expansion that `MacroExpands`
counts for the file `F`. -/
def macroOf (F : Str) : Event → Bool
  | Event.macroExpands e => macroCounts e && decide (get_filename e.macro_def_loc = F)
  | _ => false

/-- The file `F` has a record, and its recorded location is `loc` unless its
count is positive. -/
def Located (F : Str) (loc : SourceLocation) (s : State) : Prop :=
  F ∈ mapKeys s.include_usages_count
    ∧ (locationAt s.include_locations F = loc ∨ 1 ≤ usageCount s.include_usages_count F)

/-- The file `F` has a record and its recorded location is `loc`. -/
def LocatedAt (F : Str) (loc : SourceLocation) (s : State) : Prop :=
  F ∈ mapKeys s.include_usages_count ∧ locationAt s.include_locations F = loc

/-- The path spelled by the segments `qs`, each followed by `/`, and the final
segment `last`. -/
def joinSegments (qs : List Str) (last : Str) : Str :=
  qs.foldr (fun q acc => q ++ '/' :: acc) last

/-- A segment that `trim_filename` keeps: neither `.` nor `..`, and free of
the separator. -/
def Ordinary (q : Str) : Prop :=
  q ≠ ".".toList ∧ q ≠ "..".toList ∧ '/' ∉ q

/-- A string built from kept segments, each followed by `/`. -/
def SlashForm (r : Str) : Prop :=
  ∃ qs : List Str, (∀ q ∈ qs, Ordinary q) ∧ r = joinSegments qs []

/-! ## Concrete translation units -/

/-- A location in the main file `main.c`. -/
def mainLoc (n : Nat) : SourceLocation :=
  { ID := n, filename := "main.c".toList, inMainFile := true }

/-- A location in the header `file`. -/
def headerLoc (n : Nat) (file : String) : SourceLocation :=
  { ID := n, filename := file.toList, inMainFile := false }

/-- The arguments of `InclusionDirective` for `#include "file"` at location `n`
of the main file, followed by the text `after`. -/
def directiveOf (n : Nat) (file after : String) : Inclusion :=
  { hash_loc := mainLoc n, file := some file.toList, afterFilename := after.toList }

/-- The invocation of `InclusionDirective` for `#include "file"` at location
`n` of the main file, followed by the text `after`. -/
def includeOf (n : Nat) (file after : String) : Event :=
  Event.inclusion (directiveOf n file after)

/-- A match of `"declOther"` on a function declaration `name` in the header
`file`. -/
def functionDeclIn (name file : String) : Event :=
  Event.matched {
    memberExpr := none
    declRef := none
    decl := none
    declOther := some {
      cls := DeclClass.Function
      nameAsString := name.toList
      typeAsString := []
      location := headerLoc 100 file
      beginLoc := headerLoc 100 file
      endLoc := headerLoc 101 file }
    typeLoc := none }

/-- A match of `"declRef"` in the main file on a reference to `name`, declared
in the header `file`. -/
def referenceTo (name file : String) : Event :=
  Event.matched {
    memberExpr := none
    declRef := some { declLocation := headerLoc 100 file, name := name.toList }
    decl := none
    declOther := none
    typeLoc := none }

/-- Scenario 1 of the specification: `main.c` includes `util.h`, which declares
`helper`, and `unused.h`; the body calls `helper`. -/
def scenarioUtil : List Event :=
  [includeOf 1 "util.h" "\n", includeOf 2 "unused.h" "\n",
   functionDeclIn "helper" "util.h", referenceTo "helper" "util.h"]

/-- Scenario 3 of the specification: `main.c` includes `foo_api.h` and
`foo_private.h`, which declares `Bar`; the body refers to `Bar`. -/
def scenarioPrivate : List Event :=
  [includeOf 1 "foo_api.h" "\n", includeOf 2 "foo_private.h" "\n",
   functionDeclIn "Bar" "foo_private.h", referenceTo "Bar" "foo_private.h"]

/-- The unit of C2: `main.c` includes `util.h`, which declares `helper`, and
`util.h_api.h`; the body calls `helper`. -/
def scenarioSibling : List Event :=
  [includeOf 1 "util.h" "\n", includeOf 2 "util.h_api.h" "\n",
   functionDeclIn "helper" "util.h", referenceTo "helper" "util.h"]

/-- A variable declaration `extern int counter;` in the header `vars.h`. -/
def externCounterDecl : NamedDecl :=
  { cls := DeclClass.Var true
    nameAsString := "counter".toList
    typeAsString := []
    location := headerLoc 100 "vars.h"
    beginLoc := headerLoc 99 "vars.h"
    endLoc := headerLoc 101 "vars.h" }

/-- A macro defined in `cfg.h` (at location 50) and expanded at location `n` of
the main file. -/
def macroUseAt (n : Nat) : MacroExpansion :=
  { macro_def_loc := headerLoc 50 "cfg.h", use_loc := mainLoc n }

/-- The unit of the propagation counterexample: `main.c` includes
`foo_private.h`, which declares `Bar`, and not `foo_api.h`; the body refers to
`Bar`. -/
def scenarioPrivateOnly : List Event :=
  [includeOf 1 "foo_private.h" "\n",
   functionDeclIn "Bar" "foo_private.h", referenceTo "Bar" "foo_private.h"]

/-- The unit of the ordering counterexample: `main.c` includes `b.h`, then
`a.h`, and uses neither. -/
def scenarioReversed : List Event :=
  [includeOf 1 "b.h" "\n", includeOf 2 "a.h" "\n"]

/-- The unit of the location counterexample: `main.c` includes `cfg.h` with
the allowed annotation at location 1 and expands a macro of `cfg.h` at
location 7. -/
def scenarioMacro : List Event :=
  [Event.inclusion (directiveOf 1 "cfg.h" " /* include:allowed */\n"),
   Event.macroExpands (macroUseAt 7)]

/-! ## Facts about the map model -/

theorem mapCount_eq_zero_iff {β : Type} (m : List (Str × β)) (k : Str) :
    mapCount m k = 0 ↔ mapFind m k = none := by
  unfold mapCount
  cases h : mapFind m k <;> simp

theorem mapKeys_cons {β : Type} (k : Str) (v : β) (t : List (Str × β)) :
    mapKeys ((k, v) :: t) = k :: mapKeys t := rfl

theorem mapFind_eq_none_iff {β : Type} (m : List (Str × β)) (k : Str) :
    mapFind m k = none ↔ k ∉ mapKeys m := by
  induction m with
  | nil =>
    constructor
    · intro _ h
      cases h
    · intro _
      rfl
  | cons p t ih =>
    obtain ⟨k', v'⟩ := p
    rw [mapKeys_cons, List.mem_cons]
    by_cases h : k' = k
    · simp [mapFind, h]
    · have h' : ¬ k = k' := fun e => h e.symm
      simp only [mapFind, h, if_false, h', false_or]
      exact ih

theorem mapFind_mapUpdate {β : Type} (m : List (Str × β)) (k : Str) (v : β) (k' : Str)
    (hk : mapFind m k ≠ none) :
    mapFind (mapUpdate k v m) k' = if k' = k then some v else mapFind m k' := by
  induction m with
  | nil => simp [mapFind] at hk
  | cons p t ih =>
    obtain ⟨k₀, v₀⟩ := p
    by_cases h : k₀ = k
    · subst h
      by_cases h' : k' = k₀
      · simp [mapUpdate, mapFind, h']
      · have : ¬ k₀ = k' := fun e => h' e.symm
        simp [mapUpdate, mapFind, h', this]
    · have hk' : mapFind t k ≠ none := by simpa [mapFind, h] using hk
      by_cases h' : k' = k
      · subst h'
        simp [mapUpdate, mapFind, h, ih hk']
      · by_cases h'' : k₀ = k'
        · simp [mapUpdate, mapFind, h, h', h'']
        · simp [mapUpdate, mapFind, h, h', h'', ih hk']

theorem mapFind_mapInsertNew {β : Type} (m : List (Str × β)) (k : Str) (v : β) (k' : Str)
    (hk : mapFind m k = none) :
    mapFind (mapInsertNew k v m) k' = if k' = k then some v else mapFind m k' := by
  induction m with
  | nil =>
    by_cases h : k' = k
    · simp [mapInsertNew, mapFind, h]
    · have : ¬ k = k' := fun e => h e.symm
      simp [mapInsertNew, mapFind, h, this]
  | cons p t ih =>
    obtain ⟨k₀, v₀⟩ := p
    have h0 : ¬ k₀ = k := by
      intro e
      simp [mapFind, e] at hk
    have hk' : mapFind t k = none := by simpa [mapFind, h0] using hk
    by_cases hlt : strLt k k₀ = true
    · by_cases h : k' = k
      · simp [mapInsertNew, mapFind, hlt, h]
      · have : ¬ k = k' := fun e => h e.symm
        simp [mapInsertNew, mapFind, hlt, h, this]
    · by_cases h : k' = k
      · subst h
        simp [mapInsertNew, mapFind, hlt, h0, ih hk']
      · by_cases h'' : k₀ = k'
        · subst h''
          simp [mapInsertNew, mapFind, hlt, h]
        · simp [mapInsertNew, mapFind, hlt, h, h'', ih hk']

/-- Reading a map after the assignment `m[k] = v`. -/
theorem mapFind_mapSet {β : Type} (m : List (Str × β)) (k : Str) (v : β) (k' : Str) :
    mapFind (mapSet m k v) k' = if k' = k then some v else mapFind m k' := by
  unfold mapSet
  by_cases h : mapCount m k = 0
  · rw [if_pos h]
    exact mapFind_mapInsertNew m k v k' ((mapCount_eq_zero_iff m k).1 h)
  · rw [if_neg h]
    exact mapFind_mapUpdate m k v k' (fun e => h ((mapCount_eq_zero_iff m k).2 e))

theorem mapKeys_mapUpdate {β : Type} (m : List (Str × β)) (k : Str) (v : β) :
    mapKeys (mapUpdate k v m) = mapKeys m := by
  induction m with
  | nil => rfl
  | cons p t ih =>
    obtain ⟨k₀, v₀⟩ := p
    by_cases h : k₀ = k
    · simp only [mapUpdate, h, if_true, mapKeys_cons]
    · simp only [mapUpdate, h, if_false, mapKeys_cons, ih]

theorem mapKeys_mapInsertNew_perm {β : Type} (m : List (Str × β)) (k : Str) (v : β) :
    (mapKeys (mapInsertNew k v m)).Perm (k :: mapKeys m) := by
  induction m with
  | nil => exact List.Perm.refl _
  | cons p t ih =>
    obtain ⟨k₀, v₀⟩ := p
    by_cases hlt : strLt k k₀ = true
    · simp only [mapInsertNew, hlt, if_true, mapKeys_cons]
      exact List.Perm.refl _
    · simp only [mapInsertNew, hlt, if_false, mapKeys_cons, Bool.false_eq_true]
      exact (List.Perm.cons k₀ ih).trans (List.Perm.swap k k₀ _)

theorem mem_mapKeys_mapSet {β : Type} (m : List (Str × β)) (k : Str) (v : β) (k' : Str) :
    k' ∈ mapKeys (mapSet m k v) ↔ k' = k ∨ k' ∈ mapKeys m := by
  have h1 := mapFind_eq_none_iff (mapSet m k v) k'
  have h2 := mapFind_eq_none_iff m k'
  rw [mapFind_mapSet] at h1
  by_cases h : k' = k
  · simp [h] at h1 ⊢
    exact h1
  · simp only [h, if_false, false_or] at h1 ⊢
    constructor
    · intro hm
      by_contra hn
      exact (h1.1 (h2.2 hn)) hm
    · intro hm
      by_contra hn
      exact (h2.1 (h1.2 hn)) hm

theorem nodup_mapKeys_mapSet {β : Type} (m : List (Str × β)) (k : Str) (v : β)
    (hm : (mapKeys m).Nodup) : (mapKeys (mapSet m k v)).Nodup := by
  unfold mapSet
  by_cases h : mapCount m k = 0
  · rw [if_pos h]
    have hk : k ∉ mapKeys m := (mapFind_eq_none_iff m k).1 ((mapCount_eq_zero_iff m k).1 h)
    exact ((mapKeys_mapInsertNew_perm m k v).nodup_iff).2 (List.nodup_cons.2 ⟨hk, hm⟩)
  · rw [if_neg h, mapKeys_mapUpdate]
    exact hm

theorem mem_setInsertNew (s : List Str) (k k' : Str) :
    k' ∈ setInsertNew k s ↔ k' = k ∨ k' ∈ s := by
  induction s with
  | nil => simp [setInsertNew]
  | cons a t ih =>
    by_cases hlt : strLt k a = true
    · simp [setInsertNew, hlt]
    · simp [setInsertNew, hlt, ih]
      tauto

theorem mem_setInsert (s : List Str) (k k' : Str) :
    k' ∈ setInsert s k ↔ k' = k ∨ k' ∈ s := by
  unfold setInsert
  by_cases h : k ∈ s
  · rw [if_pos h]
    constructor
    · exact Or.inr
    · rintro (e | e)
      · exact e ▸ h
      · exact e
  · rw [if_neg h]
    exact mem_setInsertNew s k k'

/-! ## Facts about the usage counters -/

theorem usageCount_mapSet (m : List (Str × Int)) (k : Str) (v : Int) (g : Str) :
    usageCount (mapSet m k v) g = if g = k then v else usageCount m g := by
  unfold usageCount
  rw [mapFind_mapSet]
  by_cases h : g = k <;> simp [h]

theorem usageCount_of_not_mem (m : List (Str × Int)) (g : Str) (h : g ∉ mapKeys m) :
    usageCount m g = 0 := by
  unfold usageCount
  rw [(mapFind_eq_none_iff m g).2 h]
  rfl

/-- The method `handle_source_location` adds one to the counter of its argument
and leaves the other counters as they are. -/
theorem usageCount_handle_source_location (m : List (Str × Int)) (f g : Str) :
    usageCount (handle_source_location m f) g = usageCount m g + (if g = f then 1 else 0) := by
  unfold handle_source_location
  by_cases h : mapCount m f = 0
  · rw [if_pos h, usageCount_mapSet]
    by_cases hg : g = f
    · subst hg
      have : usageCount m g = 0 := by
        unfold usageCount
        rw [(mapCount_eq_zero_iff m g).1 h]
        rfl
      simp [this]
    · simp [hg]
  · rw [if_neg h, usageCount_mapSet]
    by_cases hg : g = f
    · subst hg
      simp [usageCount]
    · simp [hg]

theorem mem_mapKeys_handle_source_location (m : List (Str × Int)) (f g : Str) :
    g ∈ mapKeys (handle_source_location m f) ↔ g = f ∨ g ∈ mapKeys m := by
  unfold handle_source_location
  by_cases h : mapCount m f = 0
  · rw [if_pos h]
    exact mem_mapKeys_mapSet m f 1 g
  · rw [if_neg h]
    exact mem_mapKeys_mapSet m f _ g

theorem nodup_handle_source_location (m : List (Str × Int)) (f : Str)
    (hm : (mapKeys m).Nodup) : (mapKeys (handle_source_location m f)).Nodup := by
  unfold handle_source_location
  by_cases h : mapCount m f = 0
  · rw [if_pos h]
    exact nodup_mapKeys_mapSet m f 1 hm
  · rw [if_neg h]
    exact nodup_mapKeys_mapSet m f _ hm

theorem usageCount_foldl_handle (L : List Str) (m : List (Str × Int)) (g : Str) :
    usageCount (L.foldl handle_source_location m) g = usageCount m g + (L.count g : Nat) := by
  induction L generalizing m with
  | nil => simp
  | cons f t ih =>
    rw [List.foldl_cons, ih, usageCount_handle_source_location, List.count_cons]
    by_cases hg : g = f
    · subst hg
      simp
      ring
    · have : ¬ f = g := fun e => hg e.symm
      simp [hg, this]

theorem mem_mapKeys_foldl_handle (L : List Str) (m : List (Str × Int)) (g : Str) :
    g ∈ mapKeys (L.foldl handle_source_location m) ↔ g ∈ L ∨ g ∈ mapKeys m := by
  induction L generalizing m with
  | nil => simp
  | cons f t ih =>
    rw [List.foldl_cons, ih, mem_mapKeys_handle_source_location, List.mem_cons]
    tauto

theorem nodup_foldl_handle (L : List Str) (m : List (Str × Int))
    (hm : (mapKeys m).Nodup) : (mapKeys (L.foldl handle_source_location m)).Nodup := by
  induction L generalizing m with
  | nil => exact hm
  | cons f t ih =>
    rw [List.foldl_cons]
    exact ih _ (nodup_handle_source_location m f hm)

theorem process_deps_cons (it : Str) (t : List Str) (D : List (Str × List Str))
    (m : List (Str × Int)) :
    process_deps (it :: t) D m =
      process_deps t D (((mapFind D it).getD []).foldl handle_source_location m) := by
  unfold process_deps
  rw [List.foldl_cons]
  by_cases h : mapCount D it > 0
  · rw [if_pos h]
  · rw [if_neg h]
    have h0 : mapCount D it = 0 := by omega
    rw [(mapCount_eq_zero_iff D it).1 h0]
    rfl

theorem usageCount_process_deps (U : List Str) (D : List (Str × List Str))
    (m : List (Str × Int)) (g : Str) :
    usageCount (process_deps U D m) g = usageCount m g + (creditOf U D g : Nat) := by
  induction U generalizing m with
  | nil => simp [process_deps, creditOf]
  | cons it t ih =>
    rw [process_deps_cons, ih, usageCount_foldl_handle]
    simp only [creditOf, List.map_cons, List.sum_cons, Nat.cast_add]
    ring

theorem nodup_process_deps (U : List Str) (D : List (Str × List Str))
    (m : List (Str × Int)) (hm : (mapKeys m).Nodup) :
    (mapKeys (process_deps U D m)).Nodup := by
  induction U generalizing m with
  | nil => exact hm
  | cons it t ih =>
    rw [process_deps_cons]
    exact ih _ (nodup_foldl_handle _ m hm)

theorem mem_mapKeys_process_deps (U : List Str) (D : List (Str × List Str))
    (m : List (Str × Int)) (g : Str) (hg : g ∈ mapKeys m) :
    g ∈ mapKeys (process_deps U D m) := by
  induction U generalizing m with
  | nil => exact hg
  | cons it t ih =>
    rw [process_deps_cons]
    exact ih _ ((mem_mapKeys_foldl_handle _ m g).2 (Or.inr hg))

theorem creditOf_pos (U : List Str) (D : List (Str × List Str)) (n f : Str)
    (hn : n ∈ U) (hf : f ∈ (mapFind D n).getD []) : 0 < creditOf U D f := by
  induction U with
  | nil => cases hn
  | cons it t ih =>
    simp only [creditOf, List.map_cons, List.sum_cons]
    rcases List.mem_cons.1 hn with e | e
    · subst e
      have : 0 < ((mapFind D n).getD []).count f := List.count_pos_iff.2 hf
      omega
    · have := ih e
      simp only [creditOf] at this
      omega

theorem countsOk_process_deps (U : List Str) (D : List (Str × List Str))
    (m : List (Str × Int)) (hm : CountsOk m) : CountsOk (process_deps U D m) := by
  refine ⟨nodup_process_deps U D m hm.1, fun g => ?_⟩
  rw [usageCount_process_deps]
  have := hm.2 g
  omega

theorem countsOk_crossMatch (s : State) (hm : CountsOk s.include_usages_count) :
    CountsOk (crossMatch s) := by
  unfold crossMatch
  exact countsOk_process_deps _ _ _ (countsOk_process_deps _ _ _ (countsOk_process_deps _ _ _ hm))

theorem usageCount_crossMatch (s : State) (g : Str) :
    usageCount (crossMatch s) g =
      usageCount s.include_usages_count g
        + (creditOf s.usages s.declarations g : Nat)
        + (creditOf s.definitions s.extern_declarations g : Nat)
        + (creditOf s.tag_definitions s.tag_declarations g : Nat) := by
  unfold crossMatch
  rw [usageCount_process_deps, usageCount_process_deps, usageCount_process_deps]

theorem mem_mapKeys_crossMatch (s : State) (g : Str) (hg : g ∈ mapKeys s.include_usages_count) :
    g ∈ mapKeys (crossMatch s) := by
  unfold crossMatch
  exact mem_mapKeys_process_deps _ _ _ g
    (mem_mapKeys_process_deps _ _ _ g (mem_mapKeys_process_deps _ _ _ g hg))

/-! ## Facts about the private/public propagation -/

theorem propagatePrivates_eq (m : List (Str × Int)) :
    propagatePrivates m = (apis_allowed_because_of_privates m).foldl handle_source_location m :=
  rfl

theorem usageCount_propagatePrivates (m : List (Str × Int)) (g : Str) :
    usageCount (propagatePrivates m) g =
      usageCount m g + ((apis_allowed_because_of_privates m).count g : Nat) := by
  rw [propagatePrivates_eq, usageCount_foldl_handle]

theorem countsOk_propagatePrivates (m : List (Str × Int)) (hm : CountsOk m) :
    CountsOk (propagatePrivates m) := by
  refine ⟨?_, fun g => ?_⟩
  · rw [propagatePrivates_eq]
    exact nodup_foldl_handle _ m hm.1
  · rw [usageCount_propagatePrivates]
    have := hm.2 g
    omega

theorem mem_mapKeys_propagatePrivates (m : List (Str × Int)) (g : Str) (hg : g ∈ mapKeys m) :
    g ∈ mapKeys (propagatePrivates m) := by
  rw [propagatePrivates_eq]
  exact (mem_mapKeys_foldl_handle _ m g).2 (Or.inr hg)

/-! ## Facts about the verdict loop -/

theorem locationAt_touchLocation (locs : List (Str × SourceLocation)) (f g : Str) :
    locationAt (touchLocation locs f) g = locationAt locs g := by
  unfold touchLocation
  by_cases h : mapCount locs f = 0
  · rw [if_pos h]
    unfold locationAt
    rw [mapFind_mapSet]
    by_cases hg : g = f
    · subst hg
      rw [if_pos rfl, (mapCount_eq_zero_iff locs g).1 h]
      rfl
    · rw [if_neg hg]
  · rw [if_neg h]

theorem verdictOf_touchLocation (allowed : List Str) (locs : List (Str × SourceLocation))
    (level : Level) (f : Str) (it : Str × Int) :
    verdictOf allowed (touchLocation locs f) level it = verdictOf allowed locs level it := by
  unfold verdictOf
  rw [locationAt_touchLocation]

theorem verdictStep_spec (s : State) (it : Str × Int) :
    (verdictStep s it).diags =
        s.diags ++ (verdictOf s.includes_marked_as_allowed s.include_locations
          (diagLevel s) it).toList
      ∧ (verdictStep s it).includes_marked_as_allowed = s.includes_marked_as_allowed
      ∧ (verdictStep s it).warningsAsErrors = s.warningsAsErrors
      ∧ (verdictStep s it).include_usages_count = s.include_usages_count
      ∧ (verdictStep s it).done = s.done
      ∧ ((verdictStep s it).include_locations = s.include_locations
          ∨ (verdictStep s it).include_locations = touchLocation s.include_locations it.1) := by
  unfold verdictStep verdictOf
  by_cases hc : it.2 = 0 <;> by_cases ha : it.1 ∈ s.includes_marked_as_allowed <;>
    simp [hc, ha, emit_unused_include_warn, emit_redundant_allowed_warn, diagLevel]

theorem foldl_verdictStep (l : List (Str × Int)) (s : State) :
    (l.foldl verdictStep s).diags =
        s.diags ++ l.filterMap (verdictOf s.includes_marked_as_allowed s.include_locations
          (diagLevel s))
      ∧ (l.foldl verdictStep s).include_usages_count = s.include_usages_count
      ∧ (l.foldl verdictStep s).done = s.done := by
  induction l generalizing s with
  | nil => simp
  | cons it t ih =>
    obtain ⟨h1, h2, h3, h4, h5, h6⟩ := verdictStep_spec s it
    obtain ⟨i1, i2, i3⟩ := ih (verdictStep s it)
    rw [List.foldl_cons]
    refine ⟨?_, by rw [i2, h4], by rw [i3, h5]⟩
    have hl : diagLevel (verdictStep s it) = diagLevel s := by
      unfold diagLevel
      rw [h3]
    have hv : verdictOf (verdictStep s it).includes_marked_as_allowed
        (verdictStep s it).include_locations (diagLevel (verdictStep s it)) =
        verdictOf s.includes_marked_as_allowed s.include_locations (diagLevel s) := by
      funext x
      rw [h2, hl]
      rcases h6 with e | e
      · rw [e]
      · rw [e, verdictOf_touchLocation]
    rw [i1, h1, hv, List.filterMap_cons]
    cases hd : verdictOf s.includes_marked_as_allowed s.include_locations (diagLevel s) it <;>
      simp

/-- The diagnostics reported by the first call of `onEndOfTranslationUnit`: one
verdict per entry of the final usage-count map, in iteration order. -/
theorem onEnd_diags (s : State) (h : s.done = false) :
    (onEndOfTranslationUnit s).diags =
      s.diags ++ (finalCounts s).filterMap
        (verdictOf s.includes_marked_as_allowed s.include_locations (diagLevel s)) := by
  unfold onEndOfTranslationUnit
  simp only [h, Bool.false_eq_true, if_false]
  rw [(foldl_verdictStep _ _).1]
  rfl

theorem onEnd_counts (s : State) (h : s.done = false) :
    (onEndOfTranslationUnit s).include_usages_count = finalCounts s := by
  unfold onEndOfTranslationUnit
  simp only [h, Bool.false_eq_true, if_false]
  rw [(foldl_verdictStep _ _).2.1]
  rfl

theorem onEnd_done (s : State) : (onEndOfTranslationUnit s).done = true := by
  unfold onEndOfTranslationUnit
  cases hd : s.done with
  | true => simp [hd]
  | false =>
    simp only [Bool.false_eq_true, if_false]
    rw [(foldl_verdictStep _ _).2.2]

theorem filter_verdicts (allowed : List Str) (locs : List (Str × SourceLocation))
    (level : Level) (kind : DiagKind) (F : Str) (l : List (Str × Int))
    (hl : (mapKeys l).Nodup) :
    (l.filterMap (verdictOf allowed locs level)).filter
        (fun d => decide (d.kind = kind ∧ d.filename = F)) =
      match mapFind l F with
      | some v => (verdictOf allowed locs level (F, v)).toList.filter
          (fun d => decide (d.kind = kind))
      | none => [] := by
  induction l with
  | nil => rfl
  | cons p t ih =>
    obtain ⟨k₀, v₀⟩ := p
    rw [mapKeys_cons] at hl
    obtain ⟨hk, ht⟩ := List.nodup_cons.1 hl
    have hname : ∀ d, d ∈ (verdictOf allowed locs level (k₀, v₀)).toList → d.filename = k₀ := by
      intro d hd
      rw [Option.mem_toList, Option.mem_def] at hd
      unfold verdictOf at hd
      by_cases hc : v₀ = 0 <;> by_cases ha : k₀ ∈ allowed <;> simp [hc, ha] at hd <;>
        rw [← hd]
    have hcons : List.filterMap (verdictOf allowed locs level) ((k₀, v₀) :: t) =
        (verdictOf allowed locs level (k₀, v₀)).toList ++
          List.filterMap (verdictOf allowed locs level) t := by
      rw [List.filterMap_cons]
      cases verdictOf allowed locs level (k₀, v₀) <;> rfl
    rw [hcons, List.filter_append, ih ht]
    by_cases h : k₀ = F
    · subst h
      have hnone : mapFind t k₀ = none := (mapFind_eq_none_iff t k₀).2 hk
      have hsome : mapFind ((k₀, v₀) :: t) k₀ = some v₀ := by simp [mapFind]
      rw [hnone, hsome, List.append_nil]
      apply List.filter_congr
      intro d hd
      simp [hname d hd]
    · have hfind : mapFind ((k₀, v₀) :: t) F = mapFind t F := by simp [mapFind, h]
      have hnil : List.filter (fun d => decide (d.kind = kind ∧ d.filename = F))
          (verdictOf allowed locs level (k₀, v₀)).toList = [] := by
        rw [List.filter_eq_nil_iff]
        intro d hd
        have := hname d hd
        simp [this, h]
      rw [hfind, hnil, List.nil_append]

/-! ## Facts about the callbacks -/

theorem sameShared_refl (s : State) : SameShared s s :=
  ⟨rfl, rfl, rfl, rfl, rfl, rfl⟩

theorem sameShared_trans {s t u : State} (h₁ : SameShared s t) (h₂ : SameShared t u) :
    SameShared s u := by
  obtain ⟨a1, a2, a3, a4, a5, a6⟩ := h₁
  obtain ⟨b1, b2, b3, b4, b5, b6⟩ := h₂
  exact ⟨b1.trans a1, b2.trans a2, b3.trans a3, b4.trans a4, b5.trans a5, b6.trans a6⟩

theorem sameShared_handle_tag_usage (s : State) (d : TagDecl) :
    SameShared s (handle_tag_usage s d) := by
  unfold handle_tag_usage
  split
  · exact ⟨rfl, rfl, rfl, rfl, rfl, rfl⟩
  · exact sameShared_refl s

theorem sameShared_recordDeclOther (s : State) (d : NamedDecl) :
    SameShared s (recordDeclOther s d) := by
  unfold recordDeclOther
  simp only
  split
  · exact ⟨rfl, rfl, rfl, rfl, rfl, rfl⟩
  · split
    · exact ⟨rfl, rfl, rfl, rfl, rfl, rfl⟩
    · split
      · split <;> exact ⟨rfl, rfl, rfl, rfl, rfl, rfl⟩
      · exact ⟨rfl, rfl, rfl, rfl, rfl, rfl⟩
      · exact ⟨rfl, rfl, rfl, rfl, rfl, rfl⟩
      · exact sameShared_refl s

theorem sameShared_runMemberExpr (s : State) (o : Option Str) :
    SameShared s (runMemberExpr s o) := by
  cases o with
  | none => exact sameShared_refl s
  | some d => exact ⟨rfl, rfl, rfl, rfl, rfl, rfl⟩

theorem sameShared_runDeclRef (s : State) (o : Option DeclRefExpr) :
    SameShared s (runDeclRef s o) := by
  cases o with
  | none => exact sameShared_refl s
  | some d =>
    unfold runDeclRef
    simp only
    split
    · exact ⟨rfl, rfl, rfl, rfl, rfl, rfl⟩
    · exact sameShared_refl s

theorem sameShared_runTypeLoc (s : State) (o : Option TypeLoc) :
    SameShared s (runTypeLoc s o) := by
  cases o with
  | none => exact sameShared_refl s
  | some tl =>
    obtain ⟨td, tt⟩ := tl
    unfold runTypeLoc
    simp only
    have h1 : SameShared s (match td with
        | some tag_decl => handle_tag_usage s tag_decl
        | none => s) := by
      cases td with
      | none => exact sameShared_refl s
      | some d => exact sameShared_handle_tag_usage s d
    refine sameShared_trans h1 ?_
    cases tt with
    | none => exact sameShared_refl _
    | some ty =>
      simp only
      have h2 : ∀ u : State, SameShared u (if ty.location.isValid = true then
          { u with tag_definitions := setInsert u.tag_definitions ty.name } else u) := by
        intro u
        split
        · exact ⟨rfl, rfl, rfl, rfl, rfl, rfl⟩
        · exact sameShared_refl u
      refine sameShared_trans (h2 _) ?_
      cases ty.anonDecl with
      | none => exact sameShared_refl _
      | some d => exact sameShared_handle_tag_usage _ d

/-- The match callback touches neither the shared containers, nor the
finalization flag, nor the diagnostics. -/
theorem sameShared_run (s : State) (r : MatchResult) : SameShared s (run s r) := by
  unfold run
  simp only
  refine sameShared_trans (sameShared_runMemberExpr s r.memberExpr)
    (sameShared_trans (sameShared_runDeclRef _ r.declRef) ?_)
  cases r.decl with
  | some name => exact ⟨rfl, rfl, rfl, rfl, rfl, rfl⟩
  | none =>
    cases r.declOther with
    | none => exact sameShared_runTypeLoc _ _
    | some d =>
      by_cases hv : d.location.isValid = true
      · simp only [hv, if_true]
        exact sameShared_recordDeclOther _ d
      · simp only [hv, if_false]
        exact sameShared_runTypeLoc _ _

theorem pending_of_sameShared {s t : State} (h : SameShared s t) (hs : Pending s) :
    Pending t := by
  obtain ⟨a1, _, _, a4, _, a6⟩ := h
  obtain ⟨b1, b2, b3⟩ := hs
  exact ⟨a1 ▸ b1, a4.trans b2, a6.trans b3⟩

theorem countsOk_mapSet (m : List (Str × Int)) (k : Str) (v : Int) (hv : 0 ≤ v)
    (hm : CountsOk m) : CountsOk (mapSet m k v) := by
  refine ⟨nodup_mapKeys_mapSet m k v hm.1, fun g => ?_⟩
  rw [usageCount_mapSet]
  split
  · exact hv
  · exact hm.2 g

theorem countsOk_handle_source_location (m : List (Str × Int)) (f : Str) (hm : CountsOk m) :
    CountsOk (handle_source_location m f) := by
  refine ⟨nodup_handle_source_location m f hm.1, fun g => ?_⟩
  rw [usageCount_handle_source_location]
  have := hm.2 g
  split <;> omega

theorem countsOk_MarkFileUsed (m : List (Str × Int)) (name : Str) (hm : CountsOk m) :
    CountsOk (MarkFileUsed m name) := by
  unfold MarkFileUsed
  split
  · exact countsOk_mapSet m name 1 (by decide) hm
  · exact hm

theorem countsOk_nil : CountsOk [] :=
  ⟨List.nodup_nil, fun _ => le_refl 0⟩

theorem countsOk_seedMainFile (main_filename : Str) : CountsOk (seedMainFile [] main_filename) := by
  unfold seedMainFile
  split
  · exact countsOk_MarkFileUsed _ _ (countsOk_MarkFileUsed _ _ countsOk_nil)
  · exact countsOk_nil

/-- The usage-count map after `InclusionDirective`: either untouched, or a new
record for the canonical name of a file that is not filtered. -/
theorem InclusionDirective_counts (s : State) (d : Inclusion) :
    (InclusionDirective s d).include_usages_count = s.include_usages_count
      ∨ ∃ fileName v, d.file = some fileName
          ∧ trim_filename fileName ∉ mapKeys s.include_usages_count
          ∧ isIgnoredFile (trim_filename fileName) = false
          ∧ (v = 0 ∨ v = 1)
          ∧ (InclusionDirective s d).include_usages_count =
              mapSet s.include_usages_count (trim_filename fileName) v := by
  unfold InclusionDirective
  by_cases h1 : (!d.hash_loc.isValid) = true
  · left; rw [if_pos h1]
  · rw [if_neg h1]
    cases hf : d.file with
    | none => left; rfl
    | some fileName =>
      simp only
      by_cases h2 : (!d.hash_loc.inMainFile) = true
      · left; rw [if_pos h2]
      · rw [if_neg h2]
        by_cases h3 : mapCount s.include_usages_count (trim_filename fileName) > 0
        · left; rw [if_pos h3]
        · rw [if_neg h3]
          by_cases h4 : isIgnoredFile (trim_filename fileName) = true
          · left; rw [if_pos h4]
          · rw [if_neg h4]
            right
            have h0 : mapCount s.include_usages_count (trim_filename fileName) = 0 := by omega
            refine ⟨fileName, _, rfl,
              (mapFind_eq_none_iff _ _).1 ((mapCount_eq_zero_iff _ _).1 h0), ?_, ?_, rfl⟩
            · simpa using h4
            · split
              · right; rfl
              · left; rfl

theorem InclusionDirective_frame (s : State) (d : Inclusion) :
    (InclusionDirective s d).done = s.done ∧ (InclusionDirective s d).diags = s.diags
      ∧ (InclusionDirective s d).warningsAsErrors = s.warningsAsErrors := by
  unfold InclusionDirective
  split
  · exact ⟨rfl, rfl, rfl⟩
  · split
    · exact ⟨rfl, rfl, rfl⟩
    · split
      · exact ⟨rfl, rfl, rfl⟩
      · simp only
        split
        · exact ⟨rfl, rfl, rfl⟩
        · split <;> exact ⟨rfl, rfl, rfl⟩

/-- The usage-count map after `MacroExpands`: either untouched, or the file of
the macro definition credited once. -/
theorem MacroExpands_counts (s : State) (e : MacroExpansion) :
    (MacroExpands s e).include_usages_count = s.include_usages_count
      ∨ (isIgnoredFile (get_filename e.macro_def_loc) = false
          ∧ (MacroExpands s e).include_usages_count =
            handle_source_location s.include_usages_count (get_filename e.macro_def_loc)) := by
  unfold MacroExpands
  simp only
  split
  · left; rfl
  · split
    · left; rfl
    · split
      · left; rfl
      · right
        rename_i h
        exact ⟨by simpa using h, rfl⟩

theorem MacroExpands_frame (s : State) (e : MacroExpansion) :
    (MacroExpands s e).done = s.done ∧ (MacroExpands s e).diags = s.diags
      ∧ (MacroExpands s e).warningsAsErrors = s.warningsAsErrors
      ∧ (MacroExpands s e).includes_marked_as_allowed = s.includes_marked_as_allowed := by
  unfold MacroExpands
  simp only
  split
  · exact ⟨rfl, rfl, rfl, rfl⟩
  · split
    · exact ⟨rfl, rfl, rfl, rfl⟩
    · split <;> exact ⟨rfl, rfl, rfl, rfl⟩

theorem pending_step (s : State) (ev : Event) (hs : Pending s) : Pending (step s ev) := by
  cases ev with
  | inclusion d =>
    obtain ⟨f1, f2, _⟩ := InclusionDirective_frame s d
    refine ⟨?_, f1.trans hs.2.1, f2.trans hs.2.2⟩
    rcases InclusionDirective_counts s d with e | ⟨fileName, v, _, _, _, hv, e⟩
    · exact (show (step s (Event.inclusion d)).include_usages_count = _ from e) ▸ hs.1
    · refine (show (step s (Event.inclusion d)).include_usages_count = _ from e) ▸ ?_
      exact countsOk_mapSet _ _ v (by rcases hv with h | h <;> simp [h]) hs.1
  | macroExpands e =>
    obtain ⟨f1, f2, _⟩ := MacroExpands_frame s e
    refine ⟨?_, f1.trans hs.2.1, f2.trans hs.2.2⟩
    rcases MacroExpands_counts s e with h | ⟨_, h⟩
    · exact (show (step s (Event.macroExpands e)).include_usages_count = _ from h) ▸ hs.1
    · refine (show (step s (Event.macroExpands e)).include_usages_count = _ from h) ▸ ?_
      exact countsOk_handle_source_location _ _ hs.1
  | matched r => exact pending_of_sameShared (sameShared_run s r) hs

theorem pending_foldl (evs : List Event) (s : State) (hs : Pending s) :
    Pending (evs.foldl step s) := by
  induction evs generalizing s with
  | nil => exact hs
  | cons ev t ih => exact ih _ (pending_step s ev hs)

/-- Every state reached by the callbacks of one translation unit is pending. -/
theorem pending_analyse (main_filename : Str) (w : Bool) (evs : List Event) :
    Pending (analyse main_filename w evs) :=
  pending_foldl evs _ ⟨countsOk_seedMainFile main_filename, rfl, rfl⟩

/-! ## Facts about the verdicts -/

theorem mem_of_mapFind {β : Type} (m : List (Str × β)) (k : Str) (v : β)
    (h : mapFind m k = some v) : (k, v) ∈ m := by
  induction m with
  | nil => simp [mapFind] at h
  | cons p t ih =>
    obtain ⟨k₀, v₀⟩ := p
    by_cases hk : k₀ = k
    · subst hk
      simp [mapFind] at h
      subst h
      exact List.mem_cons_self _ _
    · simp only [mapFind, hk, if_false] at h
      exact List.mem_cons_of_mem _ (ih h)

theorem countsOk_finalCounts (s : State) (hm : CountsOk s.include_usages_count) :
    CountsOk (finalCounts s) :=
  countsOk_propagatePrivates _ (countsOk_crossMatch s hm)

/-- The unused-include diagnostics that the first finalization reports for the
file `F`: one, at the recorded location, when `F` has a record with count `0`
and is not marked as allowed; none otherwise. -/
theorem unused_diagnostics (s : State) (hs : Pending s) (F : Str) :
    diagnosticsFor (onEndOfTranslationUnit s) DiagKind.unusedInclude F =
      if F ∈ mapKeys (finalCounts s) ∧ usageCount (finalCounts s) F = 0
          ∧ F ∉ s.includes_marked_as_allowed then
        [{ level := diagLevel s, loc := locationAt s.include_locations F,
           kind := DiagKind.unusedInclude, filename := F }]
      else [] := by
  obtain ⟨hok, hdone, hdiags⟩ := hs
  unfold diagnosticsFor
  rw [onEnd_diags s hdone, hdiags, List.nil_append,
    filter_verdicts _ _ _ _ F _ (countsOk_finalCounts s hok).1]
  cases hf : mapFind (finalCounts s) F with
  | none =>
    have : F ∉ mapKeys (finalCounts s) := (mapFind_eq_none_iff _ _).1 hf
    simp [this]
  | some v =>
    have hmem : F ∈ mapKeys (finalCounts s) := by
      by_contra hn
      rw [(mapFind_eq_none_iff _ _).2 hn] at hf
      cases hf
    have hv : usageCount (finalCounts s) F = v := by
      unfold usageCount
      rw [hf]
      rfl
    unfold verdictOf
    by_cases hc : v = 0 <;> by_cases ha : F ∈ s.includes_marked_as_allowed <;>
      simp [hmem, hv, hc, ha]

/-- The redundant-allowed diagnostics that the first finalization reports for
the file `F`: one, at the recorded location, when `F` has a record with a
count other than `0` and is marked as allowed; none otherwise. -/
theorem redundant_diagnostics (s : State) (hs : Pending s) (F : Str) :
    diagnosticsFor (onEndOfTranslationUnit s) DiagKind.redundantAllowed F =
      if F ∈ mapKeys (finalCounts s) ∧ usageCount (finalCounts s) F ≠ 0
          ∧ F ∈ s.includes_marked_as_allowed then
        [{ level := diagLevel s, loc := locationAt s.include_locations F,
           kind := DiagKind.redundantAllowed, filename := F }]
      else [] := by
  obtain ⟨hok, hdone, hdiags⟩ := hs
  unfold diagnosticsFor
  rw [onEnd_diags s hdone, hdiags, List.nil_append,
    filter_verdicts _ _ _ _ F _ (countsOk_finalCounts s hok).1]
  cases hf : mapFind (finalCounts s) F with
  | none =>
    have : F ∉ mapKeys (finalCounts s) := (mapFind_eq_none_iff _ _).1 hf
    simp [this]
  | some v =>
    have hmem : F ∈ mapKeys (finalCounts s) := by
      by_contra hn
      rw [(mapFind_eq_none_iff _ _).2 hn] at hf
      cases hf
    have hv : usageCount (finalCounts s) F = v := by
      unfold usageCount
      rw [hf]
      rfl
    unfold verdictOf
    by_cases hc : v = 0 <;> by_cases ha : F ∈ s.includes_marked_as_allowed <;>
      simp [hmem, hv, hc, ha]

theorem usageCount_finalCounts_ge (s : State) (g : Str) :
    usageCount (crossMatch s) g ≤ usageCount (finalCounts s) g := by
  unfold finalCounts
  rw [usageCount_propagatePrivates]
  omega

theorem trim_suffix_append (S suffix : Str) : trim_suffix (S ++ suffix) suffix = some S := by
  unfold trim_suffix
  have hlen : (S ++ suffix).length - suffix.length = S.length := by
    rw [List.length_append]
    omega
  rw [hlen, List.drop_left, List.take_left]
  simp

/-- A file `S_private.h` with a count other than `0` puts `S_api.h` on the
vector `apis_allowed_because_of_privates`. -/
theorem api_mem_of_private (m : List (Str × Int)) (S : Str)
    (h : usageCount m (S ++ "_private.h".toList) ≠ 0) :
    (S ++ "_api.h".toList) ∈ apis_allowed_because_of_privates m := by
  unfold usageCount at h
  cases hf : mapFind m (S ++ "_private.h".toList) with
  | none =>
    rw [hf] at h
    exact absurd rfl h
  | some v =>
    rw [hf] at h
    have hv : v ≠ 0 := h
    unfold apis_allowed_because_of_privates
    rw [List.mem_filterMap]
    refine ⟨(S ++ "_private.h".toList, v), mem_of_mapFind _ _ _ hf, ?_⟩
    have hc : mapCount m (S ++ "_private.h".toList) ≠ 0 := by
      intro h0
      rw [(mapCount_eq_zero_iff _ _).1 h0] at hf
      cases hf
    simp only [trim_suffix_append, hc, if_false, hf, Option.getD_some, hv]

/-! ## Facts about single directives -/

/-- A property of usage-count maps that `handle_source_location` preserves
holds after cross-matching and propagation when it holds before. -/
theorem finalCounts_induction (P : List (Str × Int) → Prop)
    (hP : ∀ m f, P m → P (handle_source_location m f)) (s : State)
    (h : P s.include_usages_count) : P (finalCounts s) := by
  have hfold : ∀ (L : List Str) (m : List (Str × Int)), P m →
      P (L.foldl handle_source_location m) := by
    intro L
    induction L with
    | nil => exact fun _ hm => hm
    | cons f t ih => exact fun m hm => ih _ (hP m f hm)
  have hdeps : ∀ (U : List Str) (D : List (Str × List Str)) (m : List (Str × Int)), P m →
      P (process_deps U D m) := by
    intro U D
    induction U with
    | nil => exact fun _ hm => hm
    | cons it t ih =>
      intro m hm
      rw [process_deps_cons]
      exact ih _ (hfold _ m hm)
  unfold finalCounts
  rw [propagatePrivates_eq]
  refine hfold _ _ ?_
  unfold crossMatch
  exact hdeps _ _ _ (hdeps _ _ _ (hdeps _ _ _ h))

theorem spared_handle_source_location (F : Str) (m : List (Str × Int)) (f : Str)
    (h : Spared F m) : Spared F (handle_source_location m f) := by
  obtain ⟨h1, h2⟩ := h
  refine ⟨fun _ => ?_, ?_⟩
  · rw [usageCount_handle_source_location]
    by_cases hm : F ∈ mapKeys m
    · have := h1 hm
      split <;> omega
    · have h0 := usageCount_of_not_mem m F hm
      have hF : F = f := by
        rename_i hmem
        rcases (mem_mapKeys_handle_source_location m f F).1 hmem with e | e
        · exact e
        · exact absurd e hm
      rw [h0, if_pos hF]
      decide
  · rcases h2 with e | e
    · exact Or.inl e
    · exact Or.inr ((mem_mapKeys_handle_source_location m f F).2 (Or.inr e))

theorem spared_mapSet_new (F : Str) (m : List (Str × Int)) (name : Str) (v : Int)
    (hnew : name ∉ mapKeys m) (hkept : isIgnoredFile name = false) (h : Spared F m) :
    Spared F (mapSet m name v) := by
  obtain ⟨h1, h2⟩ := h
  have hne : F ≠ name := by
    intro e
    subst e
    rcases h2 with e | e
    · rw [hkept] at e
      cases e
    · exact hnew e
  refine ⟨fun hmem => ?_, ?_⟩
  · rw [usageCount_mapSet, if_neg hne]
    rcases (mem_mapKeys_mapSet m name v F).1 hmem with e | e
    · exact absurd e hne
    · exact h1 e
  · rcases h2 with e | e
    · exact Or.inl e
    · exact Or.inr ((mem_mapKeys_mapSet m name v F).2 (Or.inr e))

theorem spared_step (F : Str) (s : State) (ev : Event) (h : Spared F s.include_usages_count) :
    Spared F (step s ev).include_usages_count := by
  cases ev with
  | inclusion d =>
    rcases InclusionDirective_counts s d with e | ⟨fileName, v, _, hnew, hkept, _, e⟩
    · exact (show (step s (Event.inclusion d)).include_usages_count = _ from e) ▸ h
    · refine (show (step s (Event.inclusion d)).include_usages_count = _ from e) ▸ ?_
      exact spared_mapSet_new F _ _ v hnew hkept h
  | macroExpands e =>
    rcases MacroExpands_counts s e with h' | ⟨_, h'⟩
    · exact (show (step s (Event.macroExpands e)).include_usages_count = _ from h') ▸ h
    · refine (show (step s (Event.macroExpands e)).include_usages_count = _ from h') ▸ ?_
      exact spared_handle_source_location F _ _ h
  | matched r =>
    exact (show (step s (Event.matched r)).include_usages_count = _ from
      (sameShared_run s r).1) ▸ h

theorem spared_foldl (F : Str) (evs : List Event) (s : State)
    (h : Spared F s.include_usages_count) :
    Spared F (evs.foldl step s).include_usages_count := by
  induction evs generalizing s with
  | nil => exact h
  | cons ev t ih => exact ih _ (spared_step F s ev h)

/-- The effect of an include directive of the main file that creates the
record of its file. -/
theorem InclusionDirective_records (s : State) (d : Inclusion) (fileName : Str)
    (hvalid : d.hash_loc.isValid = true) (hfile : d.file = some fileName)
    (hmain : d.hash_loc.inMainFile = true)
    (hfirst : trim_filename fileName ∉ mapKeys s.include_usages_count)
    (hkept : isIgnoredFile (trim_filename fileName) = false) :
    InclusionDirective s d =
      { s with
        includes_marked_as_allowed :=
          if hasIncludeComment d.afterFilename " /* include:allowed */".toList then
            setInsert s.includes_marked_as_allowed (trim_filename fileName)
          else s.includes_marked_as_allowed,
        include_usages_count :=
          mapSet s.include_usages_count (trim_filename fileName)
            (if hasIncludeComment d.afterFilename " /* include:optional */".toList
              then 1 else 0),
        include_locations := mapSet s.include_locations (trim_filename fileName) d.hash_loc } := by
  have h0 : mapCount s.include_usages_count (trim_filename fileName) = 0 :=
    (mapCount_eq_zero_iff _ _).2 ((mapFind_eq_none_iff _ _).2 hfirst)
  unfold InclusionDirective
  rw [hfile]
  simp only [hvalid, hmain, h0, hkept, Bool.not_true, Bool.false_eq_true, if_false,
    gt_iff_lt, lt_self_iff_false]

/-- An include directive for a filtered file changes nothing. -/
theorem InclusionDirective_ignored (s : State) (d : Inclusion) (fileName : Str)
    (hfile : d.file = some fileName)
    (hignored : isIgnoredFile (trim_filename fileName) = true) :
    InclusionDirective s d = s := by
  unfold InclusionDirective
  rw [hfile]
  simp only [hignored, if_true]
  split
  · rfl
  · split
    · rfl
    · split <;> rfl

theorem analyse_append (main_filename : Str) (w : Bool) (pre : List Event) (ev : Event)
    (post : List Event) :
    analyse main_filename w (pre ++ ev :: post) =
      post.foldl step (step (analyse main_filename w pre) ev) := by
  unfold analyse
  rw [List.foldl_append, List.foldl_cons]

theorem markedAllowed_step (F : Str) (s : State) (ev : Event) (h : MarkedAllowed F s) :
    MarkedAllowed F (step s ev) := by
  obtain ⟨h1, h2⟩ := h
  cases ev with
  | inclusion d =>
    refine ⟨?_, ?_⟩
    · show F ∈ (InclusionDirective s d).includes_marked_as_allowed
      unfold InclusionDirective
      split
      · exact h1
      · split
        · exact h1
        · split
          · exact h1
          · simp only
            split
            · exact h1
            · split
              · exact h1
              · show F ∈ (if _ then _ else _)
                split
                · exact (mem_setInsert _ _ _).2 (Or.inr h1)
                · exact h1
    · rcases InclusionDirective_counts s d with e | ⟨fileName, v, _, _, _, _, e⟩
      · exact (show (step s (Event.inclusion d)).include_usages_count = _ from e) ▸ h2
      · refine (show (step s (Event.inclusion d)).include_usages_count = _ from e) ▸ ?_
        exact (mem_mapKeys_mapSet _ _ _ _).2 (Or.inr h2)
  | macroExpands e =>
    refine ⟨?_, ?_⟩
    · exact (show (step s (Event.macroExpands e)).includes_marked_as_allowed = _ from
        (MacroExpands_frame s e).2.2.2) ▸ h1
    · rcases MacroExpands_counts s e with h' | ⟨_, h'⟩
      · exact (show (step s (Event.macroExpands e)).include_usages_count = _ from h') ▸ h2
      · refine (show (step s (Event.macroExpands e)).include_usages_count = _ from h') ▸ ?_
        exact (mem_mapKeys_handle_source_location _ _ _).2 (Or.inr h2)
  | matched r =>
    obtain ⟨a1, a2, _⟩ := sameShared_run s r
    exact ⟨(show (step s (Event.matched r)).includes_marked_as_allowed = _ from a2) ▸ h1,
      (show (step s (Event.matched r)).include_usages_count = _ from a1) ▸ h2⟩

theorem markedAllowed_foldl (F : Str) (evs : List Event) (s : State)
    (h : MarkedAllowed F s) : MarkedAllowed F (evs.foldl step s) := by
  induction evs generalizing s with
  | nil => exact h
  | cons ev t ih => exact ih _ (markedAllowed_step F s ev h)

theorem mem_mapKeys_finalCounts (s : State) (g : Str)
    (hg : g ∈ mapKeys s.include_usages_count) : g ∈ mapKeys (finalCounts s) :=
  mem_mapKeys_propagatePrivates _ g (mem_mapKeys_crossMatch s g hg)

/-! ## Facts about `MacroExpands` and `InclusionDirective` as a whole -/

/-- The callback `MacroExpands` either returns at a guard or credits the file
of the macro definition and stores the use location under its name. -/
theorem MacroExpands_eq (s : State) (e : MacroExpansion) :
    MacroExpands s e =
      if macroCounts e then
        { s with
          include_usages_count :=
            handle_source_location s.include_usages_count (get_filename e.macro_def_loc),
          include_locations :=
            mapSet s.include_locations (get_filename e.macro_def_loc) e.use_loc }
      else s := by
  unfold MacroExpands macroCounts handle_source_location
  dsimp only
  generalize get_filename e.macro_def_loc = F
  generalize isIgnoredFile F = b3
  generalize e.use_loc.isValid = b1
  generalize e.use_loc.inMainFile = b2
  cases b1 <;> cases b2 <;> cases b3 <;> rfl

/-- The callback `InclusionDirective` either returns at a guard, leaving the
state as it is, or creates the record of a file that had none. -/
theorem InclusionDirective_eq_or (s : State) (d : Inclusion) :
    InclusionDirective s d = s
      ∨ ∃ fileName, d.hash_loc.isValid = true ∧ d.file = some fileName
          ∧ d.hash_loc.inMainFile = true
          ∧ trim_filename fileName ∉ mapKeys s.include_usages_count
          ∧ isIgnoredFile (trim_filename fileName) = false := by
  cases h1 : d.hash_loc.isValid with
  | false => left; simp [InclusionDirective, h1]
  | true =>
    cases hf : d.file with
    | none => left; simp [InclusionDirective, h1, hf]
    | some fileName =>
      cases h2 : d.hash_loc.inMainFile with
      | false => left; simp [InclusionDirective, h1, hf, h2]
      | true =>
        by_cases h3 : trim_filename fileName ∈ mapKeys s.include_usages_count
        · left
          have hc : mapCount s.include_usages_count (trim_filename fileName) > 0 := by
            have : mapCount s.include_usages_count (trim_filename fileName) ≠ 0 := by
              intro h0
              exact (mapFind_eq_none_iff _ _).1 ((mapCount_eq_zero_iff _ _).1 h0) h3
            omega
          simp [InclusionDirective, h1, hf, h2, hc]
        · cases h4 : isIgnoredFile (trim_filename fileName) with
          | true => left; exact InclusionDirective_ignored s d fileName hf h4
          | false => right; exact ⟨fileName, rfl, rfl, rfl, h3, h4⟩

theorem usageCount_MarkFileUsed (m : List (Str × Int)) (name g : Str) :
    usageCount (MarkFileUsed m name) g =
      if g = name ∧ name ∉ mapKeys m then 1 else usageCount m g := by
  unfold MarkFileUsed
  by_cases h : mapCount m name = 0
  · have hk : name ∉ mapKeys m := (mapFind_eq_none_iff _ _).1 ((mapCount_eq_zero_iff _ _).1 h)
    rw [if_pos h, usageCount_mapSet]
    by_cases hg : g = name <;> simp [hg, hk]
  · have hk : ¬ name ∉ mapKeys m := fun hn =>
      h ((mapCount_eq_zero_iff _ _).2 ((mapFind_eq_none_iff _ _).2 hn))
    rw [if_neg h]
    simp [hk]

theorem usageCount_MarkFileUsed_ge (m : List (Str × Int)) (name g : Str)
    (h : ∀ g, 0 ≤ usageCount m g) :
    0 ≤ usageCount (MarkFileUsed m name) g
      ∧ usageCount m g ≤ usageCount (MarkFileUsed m name) g := by
  rw [usageCount_MarkFileUsed]
  by_cases hc : g = name ∧ name ∉ mapKeys m
  · rw [if_pos hc]
    have : usageCount m g = 0 := usageCount_of_not_mem m g (hc.1 ▸ hc.2)
    omega
  · rw [if_neg hc]
    exact ⟨h g, le_refl _⟩

theorem usageCount_InclusionDirective_ge (s : State) (d : Inclusion) (g : Str)
    (h : ∀ g, 0 ≤ usageCount s.include_usages_count g) :
    0 ≤ usageCount (InclusionDirective s d).include_usages_count g
      ∧ usageCount s.include_usages_count g
          ≤ usageCount (InclusionDirective s d).include_usages_count g := by
  rcases InclusionDirective_counts s d with e | ⟨fileName, v, _, hnew, _, hv, e⟩
  · rw [e]
    exact ⟨h g, le_refl _⟩
  · rw [e, usageCount_mapSet]
    by_cases hg : g = trim_filename fileName
    · rw [if_pos hg]
      have : usageCount s.include_usages_count g = 0 :=
        usageCount_of_not_mem _ g (hg ▸ hnew)
      rcases hv with hv | hv <;> omega
    · rw [if_neg hg]
      exact ⟨h g, le_refl _⟩

theorem creditOf_filter (U : List Str) (D : List (Str × List Str)) (f : Str) :
    creditOf (U.filter fun n => decide (n ∈ mapKeys D)) D f = creditOf U D f := by
  induction U with
  | nil => rfl
  | cons n t ih =>
    unfold creditOf at ih ⊢
    by_cases hn : n ∈ mapKeys D
    · simp only [List.filter_cons, hn, decide_True, if_true, List.map_cons, List.sum_cons, ih]
    · have hnone : mapFind D n = none := (mapFind_eq_none_iff D n).2 hn
      simp only [List.filter_cons, hn, decide_False, Bool.false_eq_true, if_false,
        List.map_cons, List.sum_cons, ih, hnone, Option.getD_none, List.count_nil, zero_add]

theorem process_deps_filter (U : List Str) (D : List (Str × List Str)) (m : List (Str × Int)) :
    process_deps (U.filter fun n => decide (n ∈ mapKeys D)) D m = process_deps U D m := by
  induction U generalizing m with
  | nil => rfl
  | cons n t ih =>
    by_cases hn : n ∈ mapKeys D
    · simp only [List.filter_cons, hn, decide_True, if_true]
      rw [process_deps_cons, process_deps_cons, ih]
    · have hnone : mapFind D n = none := (mapFind_eq_none_iff D n).2 hn
      simp only [List.filter_cons, hn, decide_False, Bool.false_eq_true, if_false]
      rw [process_deps_cons, hnone, ih]
      rfl

theorem mapFind_handle_source_location (m : List (Str × Int)) (f g : Str) :
    mapFind (handle_source_location m f) g =
      if g = f then some (usageCount m f + 1) else mapFind m g := by
  unfold handle_source_location
  by_cases h0 : mapCount m f = 0
  · rw [if_pos h0, mapFind_mapSet]
    have : usageCount m f = 0 := by
      unfold usageCount
      rw [(mapCount_eq_zero_iff _ _).1 h0]
      rfl
    rw [this]
    rfl
  · rw [if_neg h0, mapFind_mapSet]
    rfl

theorem usageCount_MacroExpands (s : State) (e : MacroExpansion) (g : Str) :
    usageCount (MacroExpands s e).include_usages_count g =
      usageCount s.include_usages_count g
        + (if macroCounts e = true ∧ g = get_filename e.macro_def_loc then 1 else 0) := by
  rw [MacroExpands_eq]
  cases hc : macroCounts e with
  | false => simp
  | true =>
    simp only [if_true, true_and]
    exact usageCount_handle_source_location _ _ _

theorem mem_apis_allowed (m : List (Str × Int)) (G : Str)
    (h : G ∈ apis_allowed_because_of_privates m) :
    ∃ X T, X ∈ mapKeys m ∧ usageCount m X ≠ 0
      ∧ trim_suffix X "_private.h".toList = some T ∧ G = T ++ "_api.h".toList := by
  unfold apis_allowed_because_of_privates at h
  rw [List.mem_filterMap] at h
  obtain ⟨⟨X, c⟩, hmem, hval⟩ := h
  have hX : X ∈ mapKeys m := List.mem_map.2 ⟨(X, c), hmem, rfl⟩
  dsimp only at hval
  cases ht : trim_suffix X "_private.h".toList with
  | none =>
    rw [ht] at hval
    cases hval
  | some T =>
    rw [ht] at hval
    dsimp only at hval
    by_cases h0 : mapCount m X = 0
    · rw [if_pos h0] at hval
      cases hval
    · by_cases h1 : (mapFind m X).getD 0 = 0
      · rw [if_neg h0, if_pos h1] at hval
        cases hval
      · rw [if_neg h0, if_neg h1] at hval
        exact ⟨X, T, hX, h1, ht, (Option.some.inj hval).symm⟩

/-! ## Facts about the key order -/

theorem char_eq_of_toNat_eq (a b : Char) (h : a.toNat = b.toNat) : a = b := by
  apply Char.ext
  apply UInt32.ext
  exact h

theorem strLt_trans (a b c : Str) (hab : strLt a b = true) (hbc : strLt b c = true) :
    strLt a c = true := by
  induction a generalizing b c with
  | nil =>
    cases b with
    | nil => simp [strLt] at hab
    | cons y ys =>
      cases c with
      | nil => simp [strLt] at hbc
      | cons z zs => simp [strLt]
  | cons x xs ih =>
    cases b with
    | nil => simp [strLt] at hab
    | cons y ys =>
      cases c with
      | nil => simp [strLt] at hbc
      | cons z zs =>
        simp only [strLt] at hab hbc ⊢
        by_cases h1 : x.toNat < y.toNat
        · by_cases h2 : y.toNat < z.toNat
          · have : x.toNat < z.toNat := by omega
            simp [this]
          · by_cases h3 : z.toNat < y.toNat
            · simp [h2, h3] at hbc
            · have : x.toNat < z.toNat := by omega
              simp [this]
        · by_cases h1' : y.toNat < x.toNat
          · simp [h1, h1'] at hab
          · simp only [h1, h1', if_false] at hab
            by_cases h2 : y.toNat < z.toNat
            · have : x.toNat < z.toNat := by omega
              simp [this]
            · by_cases h3 : z.toNat < y.toNat
              · simp [h2, h3] at hbc
              · simp only [h2, h3, if_false] at hbc
                have e1 : ¬ x.toNat < z.toNat := by omega
                have e2 : ¬ z.toNat < x.toNat := by omega
                simp only [e1, e2, if_false]
                exact ih ys zs hab hbc

theorem strLt_of_not (a b : Str) (h : ¬ strLt a b = true) (hne : a ≠ b) : strLt b a = true := by
  induction a generalizing b with
  | nil =>
    cases b with
    | nil => exact absurd rfl hne
    | cons y ys => simp [strLt] at h
  | cons x xs ih =>
    cases b with
    | nil => simp [strLt]
    | cons y ys =>
      simp only [strLt] at h ⊢
      by_cases h1 : x.toNat < y.toNat
      · simp [h1] at h
      · by_cases h2 : y.toNat < x.toNat
        · simp [h2]
        · simp only [h1, h2, if_false] at h ⊢
          have hxy : x = y := char_eq_of_toNat_eq x y (by omega)
          subst hxy
          exact ih ys h (fun e => hne (by rw [e]))

theorem keysSorted_mapInsertNew {β : Type} (m : List (Str × β)) (k : Str) (v : β)
    (hk : k ∉ mapKeys m) (hm : KeysSorted m) : KeysSorted (mapInsertNew k v m) := by
  induction m with
  | nil =>
    unfold KeysSorted mapInsertNew
    rw [mapKeys_cons]
    exact List.pairwise_singleton _ _
  | cons p t ih =>
    obtain ⟨k₀, v₀⟩ := p
    unfold KeysSorted at hm ih ⊢
    rw [mapKeys_cons] at hm hk
    obtain ⟨h0, ht⟩ := List.pairwise_cons.1 hm
    have hne : k ≠ k₀ := fun e => hk (e ▸ List.mem_cons_self _ _)
    have hkt : k ∉ mapKeys t := fun e => hk (List.mem_cons_of_mem _ e)
    by_cases hlt : strLt k k₀ = true
    · simp only [mapInsertNew, hlt, if_true, mapKeys_cons]
      refine List.pairwise_cons.2 ⟨?_, hm⟩
      intro b hb
      rcases List.mem_cons.1 hb with e | e
      · rw [e]
        exact hlt
      · exact strLt_trans k k₀ b hlt (h0 b e)
    · simp only [mapInsertNew, hlt, if_false, mapKeys_cons, Bool.false_eq_true]
      refine List.pairwise_cons.2 ⟨?_, ih hkt ht⟩
      intro b hb
      rcases List.mem_cons.1 ((mapKeys_mapInsertNew_perm t k v).subset hb) with e | e
      · rw [e]
        exact strLt_of_not k k₀ hlt hne
      · exact h0 b e

theorem keysSorted_mapSet {β : Type} (m : List (Str × β)) (k : Str) (v : β)
    (hm : KeysSorted m) : KeysSorted (mapSet m k v) := by
  unfold mapSet
  by_cases h : mapCount m k = 0
  · rw [if_pos h]
    exact keysSorted_mapInsertNew m k v
      ((mapFind_eq_none_iff m k).1 ((mapCount_eq_zero_iff m k).1 h)) hm
  · rw [if_neg h]
    unfold KeysSorted
    rw [mapKeys_mapUpdate]
    exact hm

theorem keysSorted_handle_source_location (m : List (Str × Int)) (f : Str)
    (hm : KeysSorted m) : KeysSorted (handle_source_location m f) := by
  unfold handle_source_location
  split <;> exact keysSorted_mapSet _ _ _ hm

theorem keysSorted_step (s : State) (ev : Event) (h : KeysSorted s.include_usages_count) :
    KeysSorted (step s ev).include_usages_count := by
  cases ev with
  | inclusion d =>
    rcases InclusionDirective_counts s d with e | ⟨fileName, v, _, _, _, _, e⟩
    · exact (show (step s (Event.inclusion d)).include_usages_count = _ from e) ▸ h
    · refine (show (step s (Event.inclusion d)).include_usages_count = _ from e) ▸ ?_
      exact keysSorted_mapSet _ _ v h
  | macroExpands e =>
    rcases MacroExpands_counts s e with h' | ⟨_, h'⟩
    · exact (show (step s (Event.macroExpands e)).include_usages_count = _ from h') ▸ h
    · refine (show (step s (Event.macroExpands e)).include_usages_count = _ from h') ▸ ?_
      exact keysSorted_handle_source_location _ _ h
  | matched r =>
    exact (show (step s (Event.matched r)).include_usages_count = _ from
      (sameShared_run s r).1) ▸ h

theorem keysSorted_analyse (main_filename : Str) (w : Bool) (evs : List Event) :
    KeysSorted (analyse main_filename w evs).include_usages_count := by
  have h0 : KeysSorted (initState main_filename w).include_usages_count := by
    show KeysSorted (seedMainFile [] main_filename)
    unfold seedMainFile
    split
    · unfold MarkFileUsed
      split
      · split
        · exact keysSorted_mapSet _ _ _ (keysSorted_mapSet _ _ _ List.Pairwise.nil)
        · exact keysSorted_mapSet _ _ _ List.Pairwise.nil
      · split
        · exact keysSorted_mapSet _ _ _ List.Pairwise.nil
        · exact List.Pairwise.nil
    · exact List.Pairwise.nil
  unfold analyse
  generalize initState main_filename w = s at h0
  induction evs generalizing s with
  | nil => exact h0
  | cons ev t ih => exact ih _ (keysSorted_step s ev h0)

/-- The files named by the verdicts of a map form a sublist of its keys. -/
theorem verdict_filenames_sublist (allowed : List Str) (locs : List (Str × SourceLocation))
    (level : Level) (l : List (Str × Int)) :
    ((l.filterMap (verdictOf allowed locs level)).map fun d => d.filename).Sublist
      (mapKeys l) := by
  induction l with
  | nil => exact List.Sublist.slnil
  | cons p t ih =>
    obtain ⟨k₀, v₀⟩ := p
    rw [mapKeys_cons, List.filterMap_cons]
    cases hd : verdictOf allowed locs level (k₀, v₀) with
    | none => exact List.Sublist.cons _ ih
    | some d =>
      have hname : d.filename = k₀ := by
        unfold verdictOf at hd
        by_cases hc : v₀ = 0 <;> by_cases ha : k₀ ∈ allowed <;> simp [hc, ha] at hd <;>
          rw [← hd]
      simp only [List.map_cons, hname]
      exact List.Sublist.cons₂ _ ih

/-! ## Facts about the recorded locations -/

theorem locationAt_mapSet (locs : List (Str × SourceLocation)) (k : Str) (v : SourceLocation)
    (g : Str) : locationAt (mapSet locs k v) g = if g = k then v else locationAt locs g := by
  unfold locationAt
  rw [mapFind_mapSet]
  by_cases h : g = k <;> simp [h]

theorem mapFind_of_mem {β : Type} (m : List (Str × β)) (k : Str) (v : β)
    (hm : (mapKeys m).Nodup) (h : (k, v) ∈ m) : mapFind m k = some v := by
  induction m with
  | nil => cases h
  | cons p t ih =>
    obtain ⟨k₀, v₀⟩ := p
    rw [mapKeys_cons] at hm
    obtain ⟨hk, ht⟩ := List.nodup_cons.1 hm
    rcases List.mem_cons.1 h with e | e
    · cases e
      simp [mapFind]
    · have hne : k₀ ≠ k := by
        intro e'
        subst e'
        exact hk (List.mem_map.2 ⟨(k₀, v), e, rfl⟩)
      simp only [mapFind, hne, if_false]
      exact ih ht e

/-- Every diagnostic of the first finalization carries the location recorded
under its file name, and an unused-include diagnostic names a file whose final
count is `0`. -/
theorem diag_of_mem (s : State) (hs : Pending s) (diag : Diagnostic)
    (h : diag ∈ (onEndOfTranslationUnit s).diags) :
    diag.loc = locationAt s.include_locations diag.filename
      ∧ (diag.kind = DiagKind.unusedInclude → usageCount (finalCounts s) diag.filename = 0) := by
  obtain ⟨hok, hdone, hdiags⟩ := hs
  rw [onEnd_diags s hdone, hdiags, List.nil_append, List.mem_filterMap] at h
  obtain ⟨⟨k, v⟩, hmem, hv⟩ := h
  have hfind := mapFind_of_mem _ k v (countsOk_finalCounts s hok).1 hmem
  unfold verdictOf at hv
  by_cases hc : v = 0 <;> by_cases ha : k ∈ s.includes_marked_as_allowed <;>
    simp [hc, ha] at hv
  · subst hv
    refine ⟨rfl, fun _ => ?_⟩
    show usageCount (finalCounts s) k = 0
    unfold usageCount
    rw [hfind, hc]
    rfl
  · subst hv
    exact ⟨rfl, fun hk => by cases hk⟩

theorem located_step (F : Str) (loc : SourceLocation) (s : State) (ev : Event)
    (hs : Pending s) (h : Located F loc s) : Located F loc (step s ev) := by
  obtain ⟨hkey, hloc⟩ := h
  cases ev with
  | inclusion d =>
    show Located F loc (InclusionDirective s d)
    rcases InclusionDirective_eq_or s d with e | ⟨fileName, hv, hf, hm, hnew, hkept⟩
    · rw [e]
      exact ⟨hkey, hloc⟩
    · rw [InclusionDirective_records s d fileName hv hf hm hnew hkept]
      have hne : F ≠ trim_filename fileName := fun e => hnew (e ▸ hkey)
      refine ⟨(mem_mapKeys_mapSet _ _ _ _).2 (Or.inr hkey), ?_⟩
      show locationAt (mapSet _ _ _) F = loc ∨ 1 ≤ usageCount (mapSet _ _ _) F
      rw [locationAt_mapSet, usageCount_mapSet, if_neg hne, if_neg hne]
      exact hloc
  | macroExpands e =>
    show Located F loc (MacroExpands s e)
    rw [MacroExpands_eq]
    cases hc : macroCounts e with
    | false => exact ⟨hkey, hloc⟩
    | true =>
      simp only [if_true]
      refine ⟨(mem_mapKeys_handle_source_location _ _ _).2 (Or.inr hkey), ?_⟩
      show locationAt (mapSet _ _ _) F = loc ∨ 1 ≤ usageCount (handle_source_location _ _) F
      rw [locationAt_mapSet, usageCount_handle_source_location]
      have hnn := hs.1.2 F
      by_cases hg : F = get_filename e.macro_def_loc
      · right
        rw [if_pos hg]
        omega
      · rw [if_neg hg, if_neg hg]
        rcases hloc with h1 | h1
        · exact Or.inl h1
        · exact Or.inr (by omega)
  | matched r =>
    obtain ⟨a1, _, a3, _⟩ := sameShared_run s r
    show Located F loc (run s r)
    unfold Located
    rw [a1, a3]
    exact ⟨hkey, hloc⟩

theorem located_foldl (F : Str) (loc : SourceLocation) (evs : List Event) (s : State)
    (hs : Pending s) (h : Located F loc s) : Located F loc (evs.foldl step s) := by
  induction evs generalizing s with
  | nil => exact h
  | cons ev t ih => exact ih _ (pending_step s ev hs) (located_step F loc s ev hs h)

theorem locatedAt_step (F : Str) (loc : SourceLocation) (s : State) (ev : Event)
    (hev : macroOf F ev = false) (h : LocatedAt F loc s) : LocatedAt F loc (step s ev) := by
  obtain ⟨hkey, hloc⟩ := h
  cases ev with
  | inclusion d =>
    show LocatedAt F loc (InclusionDirective s d)
    rcases InclusionDirective_eq_or s d with e | ⟨fileName, hv, hf, hm, hnew, hkept⟩
    · rw [e]
      exact ⟨hkey, hloc⟩
    · rw [InclusionDirective_records s d fileName hv hf hm hnew hkept]
      have hne : F ≠ trim_filename fileName := fun e => hnew (e ▸ hkey)
      refine ⟨(mem_mapKeys_mapSet _ _ _ _).2 (Or.inr hkey), ?_⟩
      show locationAt (mapSet _ _ _) F = loc
      rw [locationAt_mapSet, if_neg hne]
      exact hloc
  | macroExpands e =>
    show LocatedAt F loc (MacroExpands s e)
    rw [MacroExpands_eq]
    cases hc : macroCounts e with
    | false => exact ⟨hkey, hloc⟩
    | true =>
      simp only [if_true]
      have hg : F ≠ get_filename e.macro_def_loc := by
        intro e'
        simp [macroOf, hc, e'] at hev
      refine ⟨(mem_mapKeys_handle_source_location _ _ _).2 (Or.inr hkey), ?_⟩
      show locationAt (mapSet _ _ _) F = loc
      rw [locationAt_mapSet, if_neg hg]
      exact hloc
  | matched r =>
    obtain ⟨a1, _, a3, _⟩ := sameShared_run s r
    show LocatedAt F loc (run s r)
    unfold LocatedAt
    rw [a1, a3]
    exact ⟨hkey, hloc⟩

theorem locatedAt_foldl (F : Str) (loc : SourceLocation) (evs : List Event) (s : State)
    (hev : evs.all (fun ev => !macroOf F ev) = true) (h : LocatedAt F loc s) :
    LocatedAt F loc (evs.foldl step s) := by
  induction evs generalizing s with
  | nil => exact h
  | cons ev t ih =>
    rw [List.all_cons, Bool.and_eq_true] at hev
    have h1 : macroOf F ev = false := by
      cases hm : macroOf F ev with
      | false => rfl
      | true => simp [hm] at hev
    exact ih _ hev.2 (locatedAt_step F loc s ev h1 h)

/-! ## Facts about `split` and `trim_filename` -/

theorem splitFrom_append (sep : Char) (q rest cur : Str) (hq : sep ∉ q) :
    splitFrom sep (q ++ rest) cur = splitFrom sep rest (cur ++ q) := by
  induction q generalizing cur with
  | nil => simp
  | cons c cs ih =>
    have hc : c ≠ sep := fun e => hq (e ▸ List.mem_cons_self _ _)
    have hcs : sep ∉ cs := fun e => hq (List.mem_cons_of_mem _ e)
    rw [List.cons_append, splitFrom, if_neg hc, ih _ hcs, List.append_assoc]
    rfl

theorem splitFrom_sep (sep : Char) (rest cur : Str) :
    splitFrom sep (sep :: rest) cur = cur :: splitFrom sep rest [] := by
  rw [splitFrom, if_pos rfl]

theorem split_joinSegments (qs : List Str) (last : Str)
    (hqs : ∀ q ∈ qs, '/' ∉ q) (hlast : '/' ∉ last) :
    split (joinSegments qs last) '/' = qs ++ [last] := by
  unfold split
  induction qs with
  | nil =>
    show splitFrom '/' last [] = [last]
    have := splitFrom_append '/' last [] [] hlast
    rw [List.append_nil] at this
    rw [this]
    rfl
  | cons q t ih =>
    show splitFrom '/' (q ++ '/' :: joinSegments t last) [] = q :: (t ++ [last])
    rw [splitFrom_append '/' q _ [] (hqs q (List.mem_cons_self _ _)), splitFrom_sep,
      ih (fun x hx => hqs x (List.mem_cons_of_mem _ hx))]
    rfl

theorem splitFrom_no_sep (sep : Char) (text cur : Str) (hcur : sep ∉ cur) :
    ∀ part ∈ splitFrom sep text cur, sep ∉ part := by
  induction text generalizing cur with
  | nil =>
    intro part hp
    rw [splitFrom, List.mem_singleton] at hp
    rw [hp]
    exact hcur
  | cons c cs ih =>
    intro part hp
    rw [splitFrom] at hp
    by_cases hc : c = sep
    · rw [if_pos hc] at hp
      rcases List.mem_cons.1 hp with e | e
      · rw [e]
        exact hcur
      · exact ih [] (List.not_mem_nil _) part e
    · rw [if_neg hc] at hp
      refine ih (cur ++ [c]) ?_ part hp
      intro hmem
      rcases List.mem_append.1 hmem with e | e
      · exact hcur e
      · rw [List.mem_singleton] at e
        exact hc e.symm

theorem splitFrom_ne_nil (sep : Char) (text cur : Str) : splitFrom sep text cur ≠ [] := by
  induction text generalizing cur with
  | nil => simp [splitFrom]
  | cons c cs ih =>
    rw [splitFrom]
    split
    · exact List.cons_ne_nil _ _
    · exact ih _

theorem joinSegments_eq (qs : List Str) (last : Str) :
    joinSegments qs last = joinSegments qs [] ++ last := by
  induction qs with
  | nil => rfl
  | cons q t ih =>
    show q ++ '/' :: joinSegments t last = (q ++ '/' :: joinSegments t []) ++ last
    rw [ih, List.append_assoc, List.cons_append]

theorem joinSegments_concat (qs : List Str) (q : Str) :
    joinSegments (qs ++ [q]) [] = joinSegments qs [] ++ (q ++ "/".toList) := by
  induction qs with
  | nil =>
    show q ++ '/' :: [] = [] ++ (q ++ "/".toList)
    rfl
  | cons p t ih =>
    show p ++ '/' :: joinSegments (t ++ [q]) [] = (p ++ '/' :: joinSegments t []) ++ _
    rw [ih, List.append_assoc, List.cons_append]

theorem ordinary_nil : Ordinary [] := by
  refine ⟨?_, ?_, List.not_mem_nil _⟩ <;> decide

theorem slashForm_nil : SlashForm [] :=
  ⟨[], fun _ h => absurd h (List.not_mem_nil _), rfl⟩

theorem trimStep_dot (size : Nat) (st : TrimState) :
    trimStep size st ".".toList = { st with idx := st.idx + 1 } := by
  unfold trimStep
  rw [if_pos rfl]

theorem trimStep_dotdot (size : Nat) (st : TrimState) :
    trimStep size st "..".toList = { res := st.prev, prev := st.prev, idx := st.idx + 1 } := by
  unfold trimStep
  rw [if_neg (by decide), if_pos rfl]

theorem trimStep_ordinary (size : Nat) (st : TrimState) (part : Str)
    (h1 : part ≠ ".".toList) (h2 : part ≠ "..".toList) :
    trimStep size st part =
      { res := st.res ++ (part ++ (if st.idx + 1 < size then "/".toList else "".toList)),
        prev := st.res,
        idx := st.idx + 1 } := by
  unfold trimStep
  rw [if_neg h1, if_neg h2]

/-- An iteration of the loop of `trim_filename` that is not the last one keeps
`res` and `prev` in slash form. -/
theorem slashForm_trimStep (size : Nat) (st : TrimState) (part : Str)
    (hidx : st.idx + 1 < size) (hpart : '/' ∉ part)
    (h : SlashForm st.res ∧ SlashForm st.prev) :
    SlashForm (trimStep size st part).res ∧ SlashForm (trimStep size st part).prev
      ∧ (trimStep size st part).idx = st.idx + 1 := by
  by_cases h1 : part = ".".toList
  · rw [h1, trimStep_dot]
    exact ⟨h.1, h.2, rfl⟩
  · by_cases h2 : part = "..".toList
    · rw [h2, trimStep_dotdot]
      exact ⟨h.2, h.2, rfl⟩
    · rw [trimStep_ordinary size st part h1 h2, if_pos hidx]
      refine ⟨?_, h.1, rfl⟩
      obtain ⟨qs, hqs, hres⟩ := h.1
      refine ⟨qs ++ [part], ?_, ?_⟩
      · intro q hq
        rcases List.mem_append.1 hq with e | e
        · exact hqs q e
        · rw [List.mem_singleton] at e
          rw [e]
          exact ⟨h1, h2, hpart⟩
      · show st.res ++ (part ++ "/".toList) = _
        rw [joinSegments_concat, hres]

theorem slashForm_foldl (size : Nat) (parts : List Str) (st : TrimState)
    (hidx : st.idx + parts.length < size) (hparts : ∀ p ∈ parts, '/' ∉ p)
    (h : SlashForm st.res ∧ SlashForm st.prev) :
    SlashForm (parts.foldl (trimStep size) st).res
      ∧ SlashForm (parts.foldl (trimStep size) st).prev
      ∧ (parts.foldl (trimStep size) st).idx = st.idx + parts.length := by
  induction parts generalizing st with
  | nil => exact ⟨h.1, h.2, rfl⟩
  | cons p t ih =>
    rw [List.length_cons] at hidx
    obtain ⟨a, b, c⟩ := slashForm_trimStep size st p (by omega)
      (hparts p (List.mem_cons_self _ _)) h
    rw [List.foldl_cons]
    obtain ⟨a', b', c'⟩ := ih (trimStep size st p) (by omega)
      (fun x hx => hparts x (List.mem_cons_of_mem _ hx)) ⟨a, b⟩
    refine ⟨a', b', ?_⟩
    rw [c', c, List.length_cons]
    omega

/-- The result of `trim_filename` is spelled by kept segments. -/
theorem trim_filename_shape (p : Str) :
    ∃ (qs : List Str) (last : Str), (∀ q ∈ qs, Ordinary q) ∧ Ordinary last
      ∧ trim_filename p = joinSegments qs last := by
  unfold trim_filename
  simp only
  have hne : split p '/' ≠ [] := splitFrom_ne_nil '/' p []
  have hno : ∀ part ∈ split p '/', '/' ∉ part :=
    splitFrom_no_sep '/' p [] (List.not_mem_nil _)
  generalize split p '/' = parts at hne hno
  have hdecomp := List.dropLast_append_getLast hne
  generalize parts.dropLast = init at hdecomp
  generalize parts.getLast hne = lastPart at hdecomp
  subst hdecomp
  rw [List.foldl_append, List.foldl_cons, List.foldl_nil, List.length_append,
    List.length_singleton]
  obtain ⟨a, b, c⟩ := slashForm_foldl (init.length + 1) init
    { res := [], prev := [], idx := 0 } (by simp)
    (fun x hx => hno x (List.mem_append_left _ hx)) ⟨slashForm_nil, slashForm_nil⟩
  generalize List.foldl (trimStep (init.length + 1)) { res := [], prev := [], idx := 0 } init
    = st at a b c
  have hidx : ¬ st.idx + 1 < init.length + 1 := by
    rw [c]
    simp
  by_cases h1 : lastPart = ".".toList
  · rw [h1, trimStep_dot]
    obtain ⟨qs, hqs, hres⟩ := a
    exact ⟨qs, [], hqs, ordinary_nil, hres⟩
  · by_cases h2 : lastPart = "..".toList
    · rw [h2, trimStep_dotdot]
      obtain ⟨qs, hqs, hres⟩ := b
      exact ⟨qs, [], hqs, ordinary_nil, hres⟩
    · rw [trimStep_ordinary _ st lastPart h1 h2, if_neg hidx]
      obtain ⟨qs, hqs, hres⟩ := a
      refine ⟨qs, lastPart, hqs, ⟨h1, h2, hno lastPart (by simp)⟩, ?_⟩
      show st.res ++ (lastPart ++ "".toList) = _
      rw [joinSegments_eq, hres]
      simp

theorem trim_foldl_ordinary (size : Nat) (qs : List Str) (st : TrimState)
    (hidx : st.idx + qs.length < size) (hqs : ∀ q ∈ qs, Ordinary q) :
    (qs.foldl (trimStep size) st).res = st.res ++ joinSegments qs []
      ∧ (qs.foldl (trimStep size) st).idx = st.idx + qs.length := by
  induction qs generalizing st with
  | nil => simp [joinSegments]
  | cons q t ih =>
    rw [List.length_cons] at hidx
    obtain ⟨h1, h2, _⟩ := hqs q (List.mem_cons_self _ _)
    have hlt : st.idx + 1 < size := by omega
    have hstep : trimStep size st q =
        { res := st.res ++ (q ++ "/".toList), prev := st.res, idx := st.idx + 1 } := by
      rw [trimStep_ordinary size st q h1 h2, if_pos hlt]
    rw [List.foldl_cons, hstep]
    obtain ⟨a, b⟩ := ih { res := st.res ++ (q ++ "/".toList), prev := st.res, idx := st.idx + 1 }
      (by simp only; omega) (fun x hx => hqs x (List.mem_cons_of_mem _ hx))
    refine ⟨?_, ?_⟩
    · rw [a]
      show (st.res ++ (q ++ "/".toList)) ++ joinSegments t [] =
        st.res ++ (q ++ '/' :: joinSegments t [])
      simp
    · rw [b, List.length_cons]
      simp only
      omega

/-- On a path spelled by kept segments `trim_filename` is the identity. -/
theorem trim_filename_joinSegments (qs : List Str) (last : Str)
    (hqs : ∀ q ∈ qs, Ordinary q) (hlast : Ordinary last) :
    trim_filename (joinSegments qs last) = joinSegments qs last := by
  unfold trim_filename
  simp only
  rw [split_joinSegments qs last (fun q hq => (hqs q hq).2.2) hlast.2.2, List.foldl_append,
    List.foldl_cons, List.foldl_nil, List.length_append, List.length_singleton]
  obtain ⟨a, b⟩ := trim_foldl_ordinary (qs.length + 1) qs { res := [], prev := [], idx := 0 }
    (by simp) hqs
  generalize List.foldl (trimStep (qs.length + 1)) { res := [], prev := [], idx := 0 } qs
    = st at a b
  have hidx : ¬ st.idx + 1 < qs.length + 1 := by
    rw [b]
    simp
  rw [trimStep_ordinary _ st last hlast.1 hlast.2.1, if_neg hidx]
  show st.res ++ (last ++ "".toList) = _
  rw [a, joinSegments_eq qs last]
  simp

/-! ## The claims -/

/-- C1 (liveness correctness). For a file `F` that has a record in the
usage-count map, if some name of a usage set (references, definitions, tag
usages) has `F` in its declaring-file list in the paired bucket (general,
extern, tag), then after `onEndOfTranslationUnit` the usage count of `F` is
positive and no unused-include diagnostic is reported for `F`. -/
theorem liveness_correctness (main_filename : Str) (w : Bool) (evs : List Event) (F n : Str)
    (_htracked : F ∈ mapKeys (analyse main_filename w evs).include_usages_count)
    (huse :
      (n ∈ (analyse main_filename w evs).usages
          ∧ F ∈ declaringFiles (analyse main_filename w evs).declarations n)
        ∨ (n ∈ (analyse main_filename w evs).definitions
          ∧ F ∈ declaringFiles (analyse main_filename w evs).extern_declarations n)
        ∨ (n ∈ (analyse main_filename w evs).tag_definitions
          ∧ F ∈ declaringFiles (analyse main_filename w evs).tag_declarations n)) :
    0 < usageCount (onEndOfTranslationUnit (analyse main_filename w evs)).include_usages_count F
      ∧ diagnosticsFor (onEndOfTranslationUnit (analyse main_filename w evs))
          DiagKind.unusedInclude F = [] := by
  have hp := pending_analyse main_filename w evs
  generalize analyse main_filename w evs = s at huse hp
  have hpos : 0 < usageCount (finalCounts s) F := by
    have h1 := usageCount_finalCounts_ge s F
    have h2 := usageCount_crossMatch s F
    have h3 := hp.1.2 F
    have h4 : 0 < creditOf s.usages s.declarations F
        + creditOf s.definitions s.extern_declarations F
        + creditOf s.tag_definitions s.tag_declarations F := by
      rcases huse with ⟨a, b⟩ | ⟨a, b⟩ | ⟨a, b⟩
      · have := creditOf_pos _ _ n F a b
        omega
      · have := creditOf_pos _ _ n F a b
        omega
      · have := creditOf_pos _ _ n F a b
        omega
    omega
  refine ⟨?_, ?_⟩
  · rw [onEnd_counts s hp.2.1]
    exact hpos
  · rw [unused_diagnostics s hp F]
    have : usageCount (finalCounts s) F ≠ 0 := by omega
    simp [this]

/-- C1, witness: in scenario 1 the header `util.h` declares the used name
`helper`. -/
theorem liveness_correctness_witness :
    0 < usageCount (onEndOfTranslationUnit
          (analyse "main.c".toList false scenarioUtil)).include_usages_count "util.h".toList
      ∧ diagnosticsFor (onEndOfTranslationUnit (analyse "main.c".toList false scenarioUtil))
          DiagKind.unusedInclude "util.h".toList = [] :=
  liveness_correctness "main.c".toList false scenarioUtil "util.h".toList "helper".toList
    (by decide) (Or.inl (by decide))

/-- C2 (pure-dead detection), the code at the failing input. In
`scenarioSibling` the include `util.h_api.h` is not annotated, is not seeded
from `main.c`, and has count `0` after cross-matching; `util.h` is live and
does not end in `_private.h`. The propagation loop still credits
`util.h_api.h`, because `trim_suffix` returns the unchanged name of `util.h`,
and finalization reports no diagnostic at all. -/
theorem pure_dead_detection_fails :
    usageCount (crossMatch (analyse "main.c".toList false scenarioSibling))
        "util.h_api.h".toList = 0
      ∧ (analyse "main.c".toList false scenarioSibling).includes_marked_as_allowed = []
      ∧ trim_suffix "util.h".toList "_private.h".toList = some "util.h".toList
      ∧ apis_allowed_because_of_privates
          (crossMatch (analyse "main.c".toList false scenarioSibling))
        = ["main.h_api.h".toList, "main_api.h_api.h".toList, "util.h_api.h".toList]
      ∧ usageCount
          (onEndOfTranslationUnit
            (analyse "main.c".toList false scenarioSibling)).include_usages_count
          "util.h_api.h".toList = 1
      ∧ (onEndOfTranslationUnit (analyse "main.c".toList false scenarioSibling)).diags = [] := by
  decide

/-- C3, counterexample. `main.c` includes `a.h` twice, the second time with the
optional annotation, and uses nothing of it: the second directive is dropped
because `a.h` already has a record, and finalization reports `a.h` unused. -/
theorem optional_suppression_counterexample :
    hasIncludeComment (directiveOf 2 "a.h" " /* include:optional */\n").afterFilename
        " /* include:optional */".toList = true
      ∧ diagnosticsFor
          (onEndOfTranslationUnit (analyse "main.c".toList false
            [Event.inclusion (directiveOf 1 "a.h" "\n"),
             Event.inclusion (directiveOf 2 "a.h" " /* include:optional */\n")]))
          DiagKind.unusedInclude "a.h".toList
        = [{ level := Level.Warning, loc := mainLoc 1, kind := DiagKind.unusedInclude,
             filename := "a.h".toList }] := by
  decide

/-- C3 (optional suppression), amended. For an include directive of the main
file that carries the optional annotation and is processed while its file has
no record in the usage-count map, no unused-include diagnostic is reported for
the file, whatever callbacks come before and after it. -/
theorem optional_suppression (main_filename : Str) (w : Bool) (pre post : List Event)
    (d : Inclusion) (fileName : Str)
    (hvalid : d.hash_loc.isValid = true) (hfile : d.file = some fileName)
    (hmain : d.hash_loc.inMainFile = true)
    (hoptional :
      hasIncludeComment d.afterFilename " /* include:optional */".toList = true)
    (hfirst : trim_filename fileName
        ∉ mapKeys (analyse main_filename w pre).include_usages_count) :
    diagnosticsFor
        (onEndOfTranslationUnit (analyse main_filename w (pre ++ Event.inclusion d :: post)))
        DiagKind.unusedInclude (trim_filename fileName) = [] := by
  have hp := pending_analyse main_filename w (pre ++ Event.inclusion d :: post)
  have hspared : Spared (trim_filename fileName)
      (analyse main_filename w (pre ++ Event.inclusion d :: post)).include_usages_count := by
    rw [analyse_append]
    apply spared_foldl
    show Spared _ (InclusionDirective (analyse main_filename w pre) d).include_usages_count
    cases hig : isIgnoredFile (trim_filename fileName) with
    | true =>
      rw [InclusionDirective_ignored _ d fileName hfile hig]
      exact ⟨fun h => absurd h hfirst, Or.inl hig⟩
    | false =>
      rw [InclusionDirective_records _ d fileName hvalid hfile hmain hfirst hig]
      simp only [hoptional, if_true]
      refine ⟨fun _ => ?_, Or.inr ((mem_mapKeys_mapSet _ _ _ _).2 (Or.inl rfl))⟩
      rw [usageCount_mapSet, if_pos rfl]
  generalize analyse main_filename w (pre ++ Event.inclusion d :: post) = s at hp hspared
  have hfinal : Spared (trim_filename fileName) (finalCounts s) :=
    finalCounts_induction (Spared (trim_filename fileName))
      (fun m f h => spared_handle_source_location _ m f h) s hspared
  rw [unused_diagnostics s hp]
  refine if_neg (fun h => ?_)
  have := hfinal.1 h.1
  omega

/-- C3, witness: `opt.h`, annotated optional and never referenced (scenario 2
of the specification), between two other directives. -/
theorem optional_suppression_witness :
    diagnosticsFor
        (onEndOfTranslationUnit (analyse "main.c".toList false
          ([includeOf 1 "util.h" "\n"]
            ++ Event.inclusion (directiveOf 2 "opt.h" " /* include:optional */\n")
              :: [includeOf 3 "unused.h" "\n"])))
        DiagKind.unusedInclude (trim_filename "opt.h".toList) = [] :=
  optional_suppression "main.c".toList false [includeOf 1 "util.h" "\n"]
    [includeOf 3 "unused.h" "\n"] (directiveOf 2 "opt.h" " /* include:optional */\n")
    "opt.h".toList (by decide) rfl (by decide) (by decide) (by decide)

/-- C4, counterexample. `main.c` includes `main.h` with the allowed
annotation: `main.h` is seeded with count `1` before the directive is seen, so
the directive is dropped, `main.h` is not marked as allowed, and finalization
reports nothing although `main.h` ends with a positive count. -/
theorem allowed_used_conflict_counterexample :
    hasIncludeComment (directiveOf 1 "main.h" " /* include:allowed */\n").afterFilename
        " /* include:allowed */".toList = true
      ∧ 0 < usageCount
          (onEndOfTranslationUnit (analyse "main.c".toList false
            [Event.inclusion
              (directiveOf 1 "main.h" " /* include:allowed */\n")])).include_usages_count
          "main.h".toList
      ∧ diagnosticsFor
          (onEndOfTranslationUnit (analyse "main.c".toList false
            [Event.inclusion (directiveOf 1 "main.h" " /* include:allowed */\n")]))
          DiagKind.redundantAllowed "main.h".toList = [] := by
  decide

/-- C4 (allowed/used conflict), amended. For an include directive of the main
file that carries the allowed annotation and creates the record of its file
(the file is not filtered and has no record when the directive is processed):
if the file ends finalization with a positive usage count, exactly one
redundant-allowed diagnostic and no unused-include diagnostic is reported for
it; if it ends with usage count `0`, no diagnostic of either kind is reported
for it. -/
theorem allowed_used_conflict (main_filename : Str) (w : Bool) (pre post : List Event)
    (d : Inclusion) (fileName : Str)
    (hvalid : d.hash_loc.isValid = true) (hfile : d.file = some fileName)
    (hmain : d.hash_loc.inMainFile = true)
    (hallowed : hasIncludeComment d.afterFilename " /* include:allowed */".toList = true)
    (hfirst : trim_filename fileName
        ∉ mapKeys (analyse main_filename w pre).include_usages_count)
    (hkept : isIgnoredFile (trim_filename fileName) = false) :
    (0 < usageCount
          (onEndOfTranslationUnit
            (analyse main_filename w (pre ++ Event.inclusion d :: post))).include_usages_count
          (trim_filename fileName) →
        (diagnosticsFor
            (onEndOfTranslationUnit (analyse main_filename w (pre ++ Event.inclusion d :: post)))
            DiagKind.redundantAllowed (trim_filename fileName)).length = 1
          ∧ diagnosticsFor
            (onEndOfTranslationUnit (analyse main_filename w (pre ++ Event.inclusion d :: post)))
            DiagKind.unusedInclude (trim_filename fileName) = [])
      ∧ (usageCount
          (onEndOfTranslationUnit
            (analyse main_filename w (pre ++ Event.inclusion d :: post))).include_usages_count
          (trim_filename fileName) = 0 →
        diagnosticsFor
            (onEndOfTranslationUnit (analyse main_filename w (pre ++ Event.inclusion d :: post)))
            DiagKind.redundantAllowed (trim_filename fileName) = []
          ∧ diagnosticsFor
            (onEndOfTranslationUnit (analyse main_filename w (pre ++ Event.inclusion d :: post)))
            DiagKind.unusedInclude (trim_filename fileName) = []) := by
  have hp := pending_analyse main_filename w (pre ++ Event.inclusion d :: post)
  have hmarked : MarkedAllowed (trim_filename fileName)
      (analyse main_filename w (pre ++ Event.inclusion d :: post)) := by
    rw [analyse_append]
    apply markedAllowed_foldl
    show MarkedAllowed _ (InclusionDirective (analyse main_filename w pre) d)
    rw [InclusionDirective_records _ d fileName hvalid hfile hmain hfirst hkept]
    refine ⟨?_, (mem_mapKeys_mapSet _ _ _ _).2 (Or.inl rfl)⟩
    simp only [hallowed, if_true]
    exact (mem_setInsert _ _ _).2 (Or.inl rfl)
  generalize analyse main_filename w (pre ++ Event.inclusion d :: post) = s at hp hmarked
  obtain ⟨hal, hkey⟩ := hmarked
  have hkey' := mem_mapKeys_finalCounts s _ hkey
  rw [onEnd_counts s hp.2.1, unused_diagnostics s hp, redundant_diagnostics s hp]
  refine ⟨fun hpos => ?_, fun hzero => ?_⟩
  · have hne : usageCount (finalCounts s) (trim_filename fileName) ≠ 0 := by omega
    rw [if_pos ⟨hkey', hne, hal⟩, if_neg (fun h => h.2.2 hal)]
    exact ⟨rfl, rfl⟩
  · rw [if_neg (fun h => h.2.1 hzero), if_neg (fun h => h.2.2 hal)]
    exact ⟨rfl, rfl⟩

/-- C4, witness: scenario 4 of the specification, `legacy.h` annotated allowed
and included first; it ends with a positive count. -/
theorem allowed_used_conflict_witness :
    (diagnosticsFor
          (onEndOfTranslationUnit (analyse "main.c".toList false
            ([] ++ Event.inclusion (directiveOf 1 "legacy.h" " /* include:allowed */\n")
              :: [functionDeclIn "old_api" "legacy.h", referenceTo "old_api" "legacy.h"])))
          DiagKind.redundantAllowed (trim_filename "legacy.h".toList)).length = 1
      ∧ diagnosticsFor
          (onEndOfTranslationUnit (analyse "main.c".toList false
            ([] ++ Event.inclusion (directiveOf 1 "legacy.h" " /* include:allowed */\n")
              :: [functionDeclIn "old_api" "legacy.h", referenceTo "old_api" "legacy.h"])))
          DiagKind.unusedInclude (trim_filename "legacy.h".toList) = [] :=
  (allowed_used_conflict "main.c".toList false []
    [functionDeclIn "old_api" "legacy.h", referenceTo "old_api" "legacy.h"]
    (directiveOf 1 "legacy.h" " /* include:allowed */\n") "legacy.h".toList
    (by decide) rfl (by decide) (by decide) (by decide) (by decide)).1 (by decide)

/-- C5 (self-pairing), the code at the failing input. The main file is given
as `./x.c` and includes `./x.h`, whose canonical name is `x.h`; the constructor
seeds the uncanonicalized `./x.h` and `./x_api.h`, so the record of `x.h`
starts at `0` and finalization reports `x.h` unused. -/
theorem self_pairing_fails :
    trim_filename ("./x".toList ++ ".h".toList) = "x.h".toList
      ∧ seedMainFile [] "./x.c".toList = [("./x.h".toList, 1), ("./x_api.h".toList, 1)]
      ∧ (onEndOfTranslationUnit
          (analyse "./x.c".toList false
            [Event.inclusion
              { hash_loc := { ID := 1, filename := "./x.c".toList, inMainFile := true },
                file := some "./x.h".toList,
                afterFilename := "\n".toList }])).diags
        = [{ level := Level.Warning,
             loc := { ID := 1, filename := "./x.c".toList, inMainFile := true },
             kind := DiagKind.unusedInclude,
             filename := "x.h".toList }] := by
  decide

/-- C6 (private/public propagation). For every stem `S`, if `S_private.h` has a
positive usage count after cross-matching and `S_api.h` has a record, then
after finalization `S_api.h` has a positive usage count and no unused-include
diagnostic is reported for it, whatever the symbol matches of `S_api.h`. -/
theorem private_public_propagation (main_filename : Str) (w : Bool) (evs : List Event) (S : Str)
    (hprivate : 0 < usageCount (crossMatch (analyse main_filename w evs))
        (S ++ "_private.h".toList))
    (_htracked : S ++ "_api.h".toList
        ∈ mapKeys (analyse main_filename w evs).include_usages_count) :
    0 < usageCount (onEndOfTranslationUnit (analyse main_filename w evs)).include_usages_count
          (S ++ "_api.h".toList)
      ∧ diagnosticsFor (onEndOfTranslationUnit (analyse main_filename w evs))
          DiagKind.unusedInclude (S ++ "_api.h".toList) = [] := by
  have hp := pending_analyse main_filename w evs
  generalize analyse main_filename w evs = s at hprivate hp
  have hpos : 0 < usageCount (finalCounts s) (S ++ "_api.h".toList) := by
    have h1 : usageCount (finalCounts s) (S ++ "_api.h".toList) =
        usageCount (crossMatch s) (S ++ "_api.h".toList)
          + ((apis_allowed_because_of_privates (crossMatch s)).count
              (S ++ "_api.h".toList) : Nat) := usageCount_propagatePrivates _ _
    have h2 := (countsOk_crossMatch s hp.1).2 (S ++ "_api.h".toList)
    have h3 : 0 < (apis_allowed_because_of_privates (crossMatch s)).count
        (S ++ "_api.h".toList) :=
      List.count_pos_iff.2 (api_mem_of_private _ S (by omega))
    omega
  refine ⟨?_, ?_⟩
  · rw [onEnd_counts s hp.2.1]
    exact hpos
  · rw [unused_diagnostics s hp]
    have : usageCount (finalCounts s) (S ++ "_api.h".toList) ≠ 0 := by omega
    rw [if_neg (fun h => this h.2.1)]

/-- C6, witness: scenario 3 with the stem `foo`. -/
theorem private_public_propagation_witness :
    0 < usageCount (onEndOfTranslationUnit
          (analyse "main.c".toList false scenarioPrivate)).include_usages_count
          ("foo".toList ++ "_api.h".toList)
      ∧ diagnosticsFor (onEndOfTranslationUnit (analyse "main.c".toList false scenarioPrivate))
          DiagKind.unusedInclude ("foo".toList ++ "_api.h".toList) = [] :=
  private_public_propagation "main.c".toList false scenarioPrivate "foo".toList
    (by decide) (by decide)

/-- C7 (idempotent finalization). For every analysis state, a second call of
`onEndOfTranslationUnit` returns the state of the first call unchanged, usage
counts and all other fields included; in particular it reports no further
diagnostic. -/
theorem finalization_idempotent (s : State) :
    onEndOfTranslationUnit (onEndOfTranslationUnit s) = onEndOfTranslationUnit s
      ∧ (onEndOfTranslationUnit (onEndOfTranslationUnit s)).diags
          = (onEndOfTranslationUnit s).diags
      ∧ (onEndOfTranslationUnit (onEndOfTranslationUnit s)).include_usages_count
          = (onEndOfTranslationUnit s).include_usages_count := by
  have h : onEndOfTranslationUnit (onEndOfTranslationUnit s) = onEndOfTranslationUnit s := by
    have hd := onEnd_done s
    generalize onEndOfTranslationUnit s = t at hd
    unfold onEndOfTranslationUnit
    simp [hd]
  exact ⟨h, by rw [h], by rw [h]⟩

/-- C8 (filtering), the code at the failing input. `main.c` includes the file
`a`, found as `./a`: a name shorter than the suffix `.h` skips the suffix test
of `isIgnoredFile`, so `a` is tracked and reported unused although it does not
end in `.h`. -/
theorem filtering_fails :
    isIgnoredFile "a".toList = false
      ∧ hasHeaderSuffix "a".toList = false
      ∧ (onEndOfTranslationUnit
          (analyse "main.c".toList false [includeOf 1 "./a" "\n"])).diags
        = [{ level := Level.Warning, loc := mainLoc 1, kind := DiagKind.unusedInclude,
             filename := "a".toList }] := by
  decide

/-- C9 (bucket selection). For a declaration bound to `"declOther"` whose
location is valid, `run` files the declaration as follows and changes nothing
else: a typedef or another type declaration (tag included) into the tag bucket
only; a variable into the general bucket, and into the extern bucket as well
exactly when it has external storage; a function into the extern and the
general bucket; an enumeration constant into the general bucket only. Each
filing is one call of `handle_declaration` with the name and the declaring
file. -/
theorem bucket_selection (s : State) (d : NamedDecl) (hvalid : d.location.isValid = true) :
    run s (declOtherResult d) =
      match d.cls with
      | DeclClass.TypedefName =>
        { s with tag_declarations :=
            handle_declaration s.tag_declarations d.nameAsString (getFilenameFromDecl d) }
      | DeclClass.Tag =>
        { s with tag_declarations :=
            handle_declaration s.tag_declarations d.typeAsString (getFilenameFromDecl d) }
      | DeclClass.OtherType =>
        { s with tag_declarations :=
            handle_declaration s.tag_declarations d.typeAsString (getFilenameFromDecl d) }
      | DeclClass.Var true =>
        { s with
          extern_declarations :=
            handle_declaration s.extern_declarations d.nameAsString (getFilenameFromDecl d),
          declarations :=
            handle_declaration s.declarations d.nameAsString (getFilenameFromDecl d) }
      | DeclClass.Var false =>
        { s with declarations :=
            handle_declaration s.declarations d.nameAsString (getFilenameFromDecl d) }
      | DeclClass.Function =>
        { s with
          extern_declarations :=
            handle_declaration s.extern_declarations d.nameAsString (getFilenameFromDecl d),
          declarations :=
            handle_declaration s.declarations d.nameAsString (getFilenameFromDecl d) }
      | DeclClass.EnumConstant =>
        { s with declarations :=
            handle_declaration s.declarations d.nameAsString (getFilenameFromDecl d) }
      | DeclClass.Other => s := by
  obtain ⟨cls, nm, ty, l1, l2, l3⟩ := d
  have hv : l1.isValid = true := hvalid
  cases cls with
  | Var b => cases b <;> simp [run, declOtherResult, runMemberExpr, runDeclRef, hv, recordDeclOther, DeclClass.isTypeDecl]
  | _ => simp [run, declOtherResult, runMemberExpr, runDeclRef, hv, recordDeclOther, DeclClass.isTypeDecl]

/-- C9, witness: `extern int counter;` of `vars.h` goes to the extern and the
general bucket. -/
theorem bucket_selection_witness :
    run (initState "main.c".toList false) (declOtherResult externCounterDecl) =
      { initState "main.c".toList false with
        extern_declarations := [("counter".toList, ["vars.h".toList])],
        declarations := [("counter".toList, ["vars.h".toList])] } :=
  (bucket_selection (initState "main.c".toList false) externCounterDecl (by decide)).trans
    (by decide)

/-- C10 (declaration index record). After `handle_declaration(B, n, f)` the
list of `n` is the previous list (empty if `n` was absent) with `f` appended at
the end, so `f` occurs once more than before also when it was already listed,
and the list of every other name is as before. -/
theorem declaration_index_record (B : List (Str × List Str)) (n f n' : Str) :
    mapFind (handle_declaration B n f) n' =
        (if n' = n then some (declaringFiles B n ++ [f]) else mapFind B n')
      ∧ declaringFiles (handle_declaration B n f) n = declaringFiles B n ++ [f]
      ∧ (declaringFiles (handle_declaration B n f) n).count f
          = (declaringFiles B n).count f + 1 := by
  have key : ∀ k, mapFind (handle_declaration B n f) k =
      (if k = n then some (declaringFiles B n ++ [f]) else mapFind B k) := by
    intro k
    unfold handle_declaration declaringFiles
    by_cases h : mapCount B n = 0
    · have hnone := (mapCount_eq_zero_iff B n).1 h
      simp only [h, if_true, mapFind_mapSet, hnone, Option.getD_some, Option.getD_none]
      by_cases hk : k = n <;> simp [hk]
    · simp only [h, if_false, mapFind_mapSet]
  have hlist : declaringFiles (handle_declaration B n f) n = declaringFiles B n ++ [f] := by
    unfold declaringFiles at key ⊢
    rw [key n]
    simp
  refine ⟨key n', hlist, ?_⟩
  rw [hlist, List.count_append]
  simp

/-- C11 (cross-matching credit). For every usage set `U`, declaration bucket
`D`, usage-count map `m` and file `f`, `process_deps(U, D)` raises the count of
`f` by the number of occurrences of `f` in the lists `D[n]`, summed over the
names `n` of `U` that are keys of `D`, so every declaring file of a used name
is credited once per occurrence; and the used names without an entry in `D`
can be dropped from `U` without changing the resulting map. -/
theorem cross_matching_credit (U : List Str) (D : List (Str × List Str))
    (m : List (Str × Int)) (f : Str) :
    usageCount (process_deps U D m) f =
        usageCount m f
          + (((U.filter fun n => decide (n ∈ mapKeys D)).map
                fun n => (declaringFiles D n).count f).sum : Nat)
      ∧ process_deps (U.filter fun n => decide (n ∈ mapKeys D)) D m = process_deps U D m := by
  refine ⟨?_, process_deps_filter U D m⟩
  rw [usageCount_process_deps, ← creditOf_filter]
  rfl

/-- C12, counterexample. In `scenarioReversed` the directive of `b.h` is
recorded before the directive of `a.h`; finalization reports `a.h` first. -/
theorem diagnostic_order_counterexample :
    directiveFiles scenarioReversed = ["b.h".toList, "a.h".toList]
      ∧ (onEndOfTranslationUnit (analyse "main.c".toList false scenarioReversed)).diags
        = [{ level := Level.Warning, loc := mainLoc 2, kind := DiagKind.unusedInclude,
             filename := "a.h".toList },
           { level := Level.Warning, loc := mainLoc 1, kind := DiagKind.unusedInclude,
             filename := "b.h".toList }] := by
  decide

/-- C12 (diagnostic order), amended. The sequence of diagnostics reported by
finalization lists the diagnosed files in strictly ascending order of their
canonical names (the order `std::string::operator<` of the keys of the
usage-count map), whatever the order of the include directives. -/
theorem diagnostic_order (main_filename : Str) (w : Bool) (evs : List Event) :
    ((onEndOfTranslationUnit (analyse main_filename w evs)).diags.map
        fun d => d.filename).Pairwise fun a b => strLt a b = true := by
  have hp := pending_analyse main_filename w evs
  have hs := keysSorted_analyse main_filename w evs
  generalize analyse main_filename w evs = s at hp hs
  have hfinal : KeysSorted (finalCounts s) :=
    finalCounts_induction (fun m => KeysSorted m)
      (fun m f h => keysSorted_handle_source_location m f h) s hs
  rw [onEnd_diags s hp.2.1, hp.2.2, List.nil_append]
  exact List.Pairwise.sublist (verdict_filenames_sublist _ _ _ _) hfinal

/-- C13, counterexample. In `scenarioMacro` the directive of `cfg.h` is at
location 1 of the main file; the redundant-allowed diagnostic for `cfg.h`
carries location 7, the use location of the macro expansion, which
`MacroExpands` has stored over the directive location. -/
theorem diagnostic_location_counterexample :
    (directiveOf 1 "cfg.h" " /* include:allowed */\n").hash_loc = mainLoc 1
      ∧ (onEndOfTranslationUnit (analyse "main.c".toList false scenarioMacro)).diags
        = [{ level := Level.Warning, loc := mainLoc 7, kind := DiagKind.redundantAllowed,
             filename := "cfg.h".toList }] := by
  decide

/-- C13 (diagnostic location), amended. Let an include directive of the main
file create the record of its file `F` (valid location, file found, `F` not
filtered and without a record). Every unused-include diagnostic for `F`
carries the location of that directive, and so does a redundant-allowed
diagnostic for `F` when no later callback is a macro expansion counted for
`F`. -/
theorem diagnostic_location (main_filename : Str) (w : Bool) (pre post : List Event)
    (d : Inclusion) (fileName : Str) (diag : Diagnostic)
    (hvalid : d.hash_loc.isValid = true) (hfile : d.file = some fileName)
    (hmain : d.hash_loc.inMainFile = true)
    (hfirst : trim_filename fileName
        ∉ mapKeys (analyse main_filename w pre).include_usages_count)
    (hkept : isIgnoredFile (trim_filename fileName) = false)
    (hdiag : diag ∈ (onEndOfTranslationUnit
        (analyse main_filename w (pre ++ Event.inclusion d :: post))).diags)
    (hfor : diag.filename = trim_filename fileName)
    (hcase : diag.kind = DiagKind.unusedInclude
        ∨ post.all (fun ev => !macroOf (trim_filename fileName) ev) = true) :
    diag.loc = d.hash_loc := by
  have hp := pending_analyse main_filename w (pre ++ Event.inclusion d :: post)
  have hpre := pending_analyse main_filename w pre
  have hrec := InclusionDirective_records (analyse main_filename w pre) d fileName
    hvalid hfile hmain hfirst hkept
  have hat : LocatedAt (trim_filename fileName) d.hash_loc
      (step (analyse main_filename w pre) (Event.inclusion d)) := by
    show LocatedAt _ _ (InclusionDirective (analyse main_filename w pre) d)
    rw [hrec]
    refine ⟨(mem_mapKeys_mapSet _ _ _ _).2 (Or.inl rfl), ?_⟩
    show locationAt (mapSet _ _ _) _ = _
    rw [locationAt_mapSet, if_pos rfl]
  have hstep := pending_step (analyse main_filename w pre) (Event.inclusion d) hpre
  have hloc : Located (trim_filename fileName) d.hash_loc
      (analyse main_filename w (pre ++ Event.inclusion d :: post)) := by
    rw [analyse_append]
    exact located_foldl _ _ post _ hstep ⟨hat.1, Or.inl hat.2⟩
  have hstrict : post.all (fun ev => !macroOf (trim_filename fileName) ev) = true →
      LocatedAt (trim_filename fileName) d.hash_loc
        (analyse main_filename w (pre ++ Event.inclusion d :: post)) := by
    intro hall
    rw [analyse_append]
    exact locatedAt_foldl _ _ post _ hall hat
  generalize analyse main_filename w (pre ++ Event.inclusion d :: post) = s
    at hp hdiag hloc hstrict
  obtain ⟨h1, h2⟩ := diag_of_mem s hp diag hdiag
  rw [h1, hfor]
  rcases hcase with hk | hall
  · have hzero := h2 hk
    rw [hfor] at hzero
    have hge := usageCount_finalCounts_ge s (trim_filename fileName)
    have hcm := usageCount_crossMatch s (trim_filename fileName)
    rcases hloc.2 with e | e
    · exact e
    · omega
  · exact (hstrict hall).2

/-- C13, witness: scenario 1 of the specification; the unused-include
diagnostic for `unused.h` carries the location of its directive. -/
theorem diagnostic_location_witness :
    ({ level := Level.Warning, loc := mainLoc 2, kind := DiagKind.unusedInclude,
       filename := "unused.h".toList } : Diagnostic)
        ∈ (onEndOfTranslationUnit (analyse "main.c".toList false
            ([includeOf 1 "util.h" "\n"] ++ Event.inclusion (directiveOf 2 "unused.h" "\n")
              :: [functionDeclIn "helper" "util.h", referenceTo "helper" "util.h"]))).diags
      ∧ ({ level := Level.Warning, loc := mainLoc 2, kind := DiagKind.unusedInclude,
           filename := "unused.h".toList } : Diagnostic).loc
        = (directiveOf 2 "unused.h" "\n").hash_loc :=
  ⟨by decide,
    diagnostic_location "main.c".toList false [includeOf 1 "util.h" "\n"]
      [functionDeclIn "helper" "util.h", referenceTo "helper" "util.h"]
      (directiveOf 2 "unused.h" "\n") "unused.h".toList
      { level := Level.Warning, loc := mainLoc 2, kind := DiagKind.unusedInclude,
        filename := "unused.h".toList }
      (by decide) rfl (by decide) (by decide) (by decide) (by decide) (by decide)
      (Or.inl rfl)⟩

/-- C14 (FileId canonicalization), the code at the failing inputs. The
spellings `a/b/c/../../d.h` and `a/d.h` denote the same file under lexical
resolution, and so do `a/.` and `a`; `trim_filename` keeps only one earlier
result in `prev`, so the second of two consecutive `..` cancels nothing, and
it appends `/` to a segment that is followed by a final `.`. -/
theorem canonicalization_fails :
    lexicalResolution "a/b/c/../../d.h".toList = lexicalResolution "a/d.h".toList
      ∧ trim_filename "a/b/c/../../d.h".toList = "a/b/d.h".toList
      ∧ trim_filename "a/d.h".toList = "a/d.h".toList
      ∧ lexicalResolution "a/.".toList = lexicalResolution "a".toList
      ∧ trim_filename "a/.".toList = "a/".toList
      ∧ trim_filename "a".toList = "a".toList := by
  decide

/-- C15 (macro-use credit). `MacroExpands` leaves the allowed set unchanged. A
macro expansion whose use location is valid and in the main file and whose
definition file `F` is not filtered stores `count + 1` under `F` (`1` when `F`
had no record) and leaves the record, or the absence of a record, of every
other file as it was; any other macro expansion leaves the whole usage-count
map as it was. -/
theorem macro_use_credit (s : State) (e : MacroExpansion) (g : Str) :
    (MacroExpands s e).includes_marked_as_allowed = s.includes_marked_as_allowed
      ∧ mapFind (MacroExpands s e).include_usages_count g =
          (if macroCounts e = true ∧ g = get_filename e.macro_def_loc then
            some (usageCount s.include_usages_count g + 1)
          else mapFind s.include_usages_count g)
      ∧ usageCount (MacroExpands s e).include_usages_count g =
          usageCount s.include_usages_count g
            + (if macroCounts e = true ∧ g = get_filename e.macro_def_loc then 1 else 0)
      ∧ (MacroExpands s e).include_usages_count =
          (if macroCounts e = true then
            handle_source_location s.include_usages_count (get_filename e.macro_def_loc)
          else s.include_usages_count) := by
  refine ⟨(MacroExpands_frame s e).2.2.2, ?_, usageCount_MacroExpands s e g, ?_⟩
  · rw [MacroExpands_eq]
    cases hc : macroCounts e with
    | false => simp
    | true =>
      simp only [if_true, true_and]
      rw [mapFind_handle_source_location]
      by_cases hg : g = get_filename e.macro_def_loc
      · rw [if_pos hg, if_pos hg, hg]
      · rw [if_neg hg, if_neg hg]
  · rw [MacroExpands_eq]
    cases hc : macroCounts e with
    | false => simp
    | true => simp

/-- C16, counterexample. In `scenarioPrivateOnly` the file `foo_api.h` has no
record at the end of cross-matching; the propagation creates one with count
`1`. -/
theorem propagation_scope_counterexample :
    "foo_api.h".toList
        ∉ mapKeys (crossMatch (analyse "main.c".toList false scenarioPrivateOnly))
      ∧ mapFind
          (propagatePrivates (crossMatch (analyse "main.c".toList false scenarioPrivateOnly)))
          "foo_api.h".toList = some 1 := by
  decide

/-- C16 (scope of the private/public propagation), amended. Let `m` be the
usage-count map at the end of cross-matching, whatever it is. For every stem
`S` such that `S_private.h` has a positive count in `m`, the propagation gives
`S_api.h` a record and raises its count by at least one. No count decreases
and no record is removed. The count of a file `G` changes only if `G` is the
`_api.h` name computed from a file that has a record and a count other than
`0` in `m` itself, so a file that only the propagation makes live credits
nothing (single pass). -/
theorem propagation_scope (m : List (Str × Int)) :
    (∀ S, 0 < usageCount m (S ++ "_private.h".toList) →
        S ++ "_api.h".toList ∈ mapKeys (propagatePrivates m)
          ∧ usageCount m (S ++ "_api.h".toList) + 1
              ≤ usageCount (propagatePrivates m) (S ++ "_api.h".toList))
      ∧ (∀ G, usageCount m G ≤ usageCount (propagatePrivates m) G
          ∧ (G ∈ mapKeys m → G ∈ mapKeys (propagatePrivates m)))
      ∧ (∀ G, usageCount (propagatePrivates m) G ≠ usageCount m G →
          ∃ X T, X ∈ mapKeys m ∧ usageCount m X ≠ 0
            ∧ trim_suffix X "_private.h".toList = some T ∧ G = T ++ "_api.h".toList) := by
  refine ⟨fun S hprivate => ?_, fun G => ⟨?_, mem_mapKeys_propagatePrivates m G⟩,
    fun G hne => ?_⟩
  · have hmem : S ++ "_api.h".toList ∈ apis_allowed_because_of_privates m :=
      api_mem_of_private m S (by omega)
    refine ⟨?_, ?_⟩
    · rw [propagatePrivates_eq]
      exact (mem_mapKeys_foldl_handle _ m _).2 (Or.inl hmem)
    · rw [usageCount_propagatePrivates]
      have := List.count_pos_iff.2 hmem
      omega
  · rw [usageCount_propagatePrivates]
    omega
  · rw [usageCount_propagatePrivates] at hne
    have hpos : 0 < (apis_allowed_because_of_privates m).count G := by
      by_contra h0
      have : (apis_allowed_because_of_privates m).count G = 0 := by omega
      rw [this] at hne
      simp at hne
    exact mem_apis_allowed m G (List.count_pos_iff.1 hpos)

/-- C16, witness: scenario 3. The live `foo_private.h` credits `foo_api.h`,
the record of `foo_private.h` stays, and the change of `foo_api.h` is traced
to a file that was live at the end of cross-matching. -/
theorem propagation_scope_witness :
    ("foo".toList ++ "_api.h".toList
          ∈ mapKeys
              (propagatePrivates (crossMatch (analyse "main.c".toList false scenarioPrivate)))
        ∧ usageCount (crossMatch (analyse "main.c".toList false scenarioPrivate))
              ("foo".toList ++ "_api.h".toList) + 1
            ≤ usageCount
                (propagatePrivates (crossMatch (analyse "main.c".toList false scenarioPrivate)))
                ("foo".toList ++ "_api.h".toList))
      ∧ "foo_private.h".toList
          ∈ mapKeys
              (propagatePrivates (crossMatch (analyse "main.c".toList false scenarioPrivate)))
      ∧ ∃ X T, X ∈ mapKeys (crossMatch (analyse "main.c".toList false scenarioPrivate))
          ∧ usageCount (crossMatch (analyse "main.c".toList false scenarioPrivate)) X ≠ 0
          ∧ trim_suffix X "_private.h".toList = some T
          ∧ "foo_api.h".toList = T ++ "_api.h".toList :=
  ⟨(propagation_scope (crossMatch (analyse "main.c".toList false scenarioPrivate))).1
      "foo".toList (by decide),
    ((propagation_scope (crossMatch (analyse "main.c".toList false scenarioPrivate))).2.1
      "foo_private.h".toList).2 (by decide),
    (propagation_scope (crossMatch (analyse "main.c".toList false scenarioPrivate))).2.2
      "foo_api.h".toList (by decide)⟩

/-- C17 (usage-count invariant). In every analysis, for every file `g`: the
seeded map has no negative count; each callback (`InclusionDirective`,
`MacroExpands`, `run`) leaves the count of `g` non-negative and not smaller
than before; so does each of the three cross-matching passes and the
private/public propagation; and the verdict loop leaves the usage-count map as
the propagation produced it. -/
theorem usage_count_invariant (main_filename : Str) (w : Bool) (evs : List Event) (ev : Event)
    (g : Str) :
    0 ≤ usageCount (initState main_filename w).include_usages_count g
      ∧ (0 ≤ usageCount (step (analyse main_filename w evs) ev).include_usages_count g
          ∧ usageCount (analyse main_filename w evs).include_usages_count g
              ≤ usageCount (step (analyse main_filename w evs) ev).include_usages_count g)
      ∧ (0 ≤ usageCount (analyse main_filename w evs).include_usages_count g
          ∧ usageCount (analyse main_filename w evs).include_usages_count g
              ≤ usageCount
                  (process_deps (analyse main_filename w evs).usages
                    (analyse main_filename w evs).declarations
                    (analyse main_filename w evs).include_usages_count) g
          ∧ usageCount
                (process_deps (analyse main_filename w evs).usages
                  (analyse main_filename w evs).declarations
                  (analyse main_filename w evs).include_usages_count) g
              ≤ usageCount
                  (process_deps (analyse main_filename w evs).definitions
                    (analyse main_filename w evs).extern_declarations
                    (process_deps (analyse main_filename w evs).usages
                      (analyse main_filename w evs).declarations
                      (analyse main_filename w evs).include_usages_count)) g
          ∧ usageCount
                (process_deps (analyse main_filename w evs).definitions
                  (analyse main_filename w evs).extern_declarations
                  (process_deps (analyse main_filename w evs).usages
                    (analyse main_filename w evs).declarations
                    (analyse main_filename w evs).include_usages_count)) g
              ≤ usageCount (crossMatch (analyse main_filename w evs)) g)
      ∧ usageCount (crossMatch (analyse main_filename w evs)) g
          ≤ usageCount (propagatePrivates (crossMatch (analyse main_filename w evs))) g
      ∧ (onEndOfTranslationUnit (analyse main_filename w evs)).include_usages_count
          = propagatePrivates (crossMatch (analyse main_filename w evs)) := by
  have hp := pending_analyse main_filename w evs
  have hp0 : Pending (initState main_filename w) := pending_analyse main_filename w []
  generalize analyse main_filename w evs = s at hp
  have hnn := hp.1.2
  have h1 := usageCount_process_deps s.usages s.declarations s.include_usages_count g
  have h2 := usageCount_process_deps s.definitions s.extern_declarations
    (process_deps s.usages s.declarations s.include_usages_count) g
  have h3 : usageCount (crossMatch s) g = _ :=
    usageCount_process_deps s.tag_definitions s.tag_declarations
      (process_deps s.definitions s.extern_declarations
        (process_deps s.usages s.declarations s.include_usages_count)) g
  have h4 := usageCount_propagatePrivates (crossMatch s) g
  refine ⟨hp0.1.2 g, ⟨(pending_step s ev hp).1.2 g, ?_⟩, ⟨hnn g, ?_, ?_, ?_⟩, ?_, ?_⟩
  · cases ev with
    | inclusion d => exact (usageCount_InclusionDirective_ge s d g hnn).2
    | macroExpands e =>
      show _ ≤ usageCount (MacroExpands s e).include_usages_count g
      rw [usageCount_MacroExpands]
      split <;> omega
    | matched r =>
      show _ ≤ usageCount (run s r).include_usages_count g
      rw [(sameShared_run s r).1]
  · omega
  · omega
  · omega
  · omega
  · exact onEnd_counts s hp.2.1

/-- C18 (first record wins). When `InclusionDirective` is invoked for a file
whose canonical name already has an entry in the usage-count map, the state is
returned unchanged: counts, recorded locations and the allowed set stay as
they are, whatever the annotation of the directive. -/
theorem first_record_wins (s : State) (d : Inclusion) (fileName : Str)
    (hfile : d.file = some fileName)
    (hrecord : trim_filename fileName ∈ mapKeys s.include_usages_count) :
    InclusionDirective s d = s := by
  rcases InclusionDirective_eq_or s d with h | ⟨fileName', _, hf, _, hnew, _⟩
  · exact h
  · rw [hfile] at hf
    cases hf
    exact absurd hrecord hnew

/-- C18, witness: a second directive for `a.h`, annotated optional, after the
first one has recorded `a.h`. -/
theorem first_record_wins_witness :
    InclusionDirective (analyse "main.c".toList false [includeOf 1 "a.h" "\n"])
        (directiveOf 2 "a.h" " /* include:optional */\n")
      = analyse "main.c".toList false [includeOf 1 "a.h" "\n"] :=
  first_record_wins (analyse "main.c".toList false [includeOf 1 "a.h" "\n"])
    (directiveOf 2 "a.h" " /* include:optional */\n") "a.h".toList rfl (by decide)

/-- C19 (idempotence of `trim_filename`). For every string `p`,
`trim_filename (trim_filename p) = trim_filename p`, and no segment of
`trim_filename p` is `.` or `..`. -/
theorem trim_filename_idempotent (p : Str) :
    trim_filename (trim_filename p) = trim_filename p
      ∧ ∀ seg ∈ split (trim_filename p) '/', seg ≠ ".".toList ∧ seg ≠ "..".toList := by
  obtain ⟨qs, last, hqs, hlast, hshape⟩ := trim_filename_shape p
  rw [hshape]
  refine ⟨trim_filename_joinSegments qs last hqs hlast, ?_⟩
  rw [split_joinSegments qs last (fun q hq => (hqs q hq).2.2) hlast.2.2]
  intro seg hseg
  rcases List.mem_append.1 hseg with e | e
  · exact ⟨(hqs seg e).1, (hqs seg e).2.1⟩
  · rw [List.mem_singleton] at e
    rw [e]
    exact ⟨hlast.1, hlast.2.1⟩

end IncludeCleaner
